import Mathlib

/-
Verification of the core DNSSEC validator and HIP-5 extension resolver of the
fingertip repository (package `internal/resolvers` and
`internal/resolvers/dnssec`), as a shallow embedding in Lean 4.

Modelling conventions:
* A DNS name is represented after parsing: a list of labels (each a list of
  byte values, textual order, leftmost label first) together with a flag
  recording whether the textual form carried the trailing dot
  (`dns.IsFqdn`).  Library helpers of `miekg/dns` that are pure functions of
  this data (`CanonicalName`, `IsSubDomain`, `CountLabel`, `SplitDomainName`,
  `Fqdn`, `strings.EqualFold`) are given their direct definitions on this
  representation.
* Cryptographic primitives of the `miekg/dns` library that the repository
  calls but does not define (`DNSKEY.KeyTag`, `DNSKEY.ToDS`, `RRSIG.Verify`,
  `RRSIG.ValidityPeriod`) are uninterpreted parameters collected in a
  `Crypto` structure; every theorem quantifies over them or instantiates
  them concretely.
* A Go `map` is modelled by an insertion-ordered association list whose
  insert replaces an existing binding in place; claims about maps are
  set-level, so the deterministic order is only a representation choice.
* Go base64 decoding of a DNSKEY public key is represented by storing the
  decoded byte buffer directly (`none` standing for a failed decode).
* The effectful resolver (`queryInternal` and the flattener) is embedded as
  a fuel-indexed interpreter over an oracle environment `REnv`; every
  external interaction is recorded in an event trace so that temporal
  claims ("the stub is consulted first", "depth never exceeds ...") become
  statements about the trace.
-/

namespace Fingertip

/-! ## Bytes and labels -/

/-- ASCII lowercase of one byte (the canonical-form folding used by
`bytes.ToLower` / `strings.EqualFold` on DNS names, which are ASCII). -/
def lowerByte (b : Nat) : Nat := if 65 ≤ b ∧ b ≤ 90 then b + 32 else b

/-- A DNS label, as its sequence of byte values. -/
abbrev Label := List Nat

def lowerLabel (l : Label) : Label := l.map lowerByte

/-- A parsed DNS name: labels in textual order plus the trailing-dot flag. -/
structure DName where
  labels : List Label
  fqdn : Bool
deriving DecidableEq, Repr

/-- `strings.EqualFold` on two names (labelwise ASCII case folding; the
trailing dot is part of the Go string, so the flags must agree). -/
def DName.equalFold (a b : DName) : Bool :=
  a.labels.map lowerLabel == b.labels.map lowerLabel && a.fqdn == b.fqdn

/-- `dns.CanonicalName`: lowercase and fully qualify. -/
def DName.canonical (a : DName) : DName := ⟨a.labels.map lowerLabel, true⟩

/-- `dns.Fqdn`. -/
def DName.toFqdn (a : DName) : DName := ⟨a.labels, true⟩

/-- `dns.CountLabel`. -/
def DName.countLabel (a : DName) : Nat := a.labels.length

/-- `dns.IsSubDomain parent child`: the labels of `parent` are a
case-insensitive suffix of the labels of `child`. -/
def isSubDomain (parent child : DName) : Bool :=
  (parent.labels.map lowerLabel).isSuffixOf (child.labels.map lowerLabel)

/-- `IsSubDomainStrict` (dnssec.go): child strictly below parent. -/
def IsSubDomainStrict (parent child : DName) : Bool :=
  isSubDomain parent child && parent.countLabel < child.countLabel

/-! ## Canonical name order (dnssec.go `canonicalNameCompare`) -/

/-- `bytes.Compare`, restricted to the −1/0/1 results Go produces. -/
def bytesCompare : List Nat → List Nat → Int
  | [], [] => 0
  | [], _ :: _ => -1
  | _ :: _, [] => 1
  | a :: as, b :: bs =>
    if a < b then -1 else if b < a then 1 else bytesCompare as bs

/-- `dns.IsDomainName` on the parsed representation: every label has 1 to 63
bytes and the wire form fits in 255 bytes. -/
def isDomainName (n : DName) : Bool :=
  n.labels.all (fun l => 1 ≤ l.length && l.length ≤ 63) &&
    (n.labels.foldl (fun a l => a + l.length + 1) 0) + 1 ≤ 255

/-- `dns.PackDomainName` of one label (compression off): fails on an
oversized or empty label, otherwise the bytes between the length octet and
the terminal root octet are the label bytes themselves. -/
def packLabel (l : Label) : Option Label :=
  if l.length = 0 ∨ 63 < l.length then none else some l

/-- The right-to-left label walk of `canonicalNameCompare`, on the reversed
label lists: compare lowercased wire-form labels pairwise; when the common
suffix is exhausted the name with fewer labels sorts first.  `none` is a
label packing error. -/
def cmpLabelsRev : List Label → List Label → Option Int
  | [], [] => some 0
  | [], _ :: _ => some (-1)
  | _ :: _, [] => some 1
  | a :: as, b :: bs =>
    match packLabel a with
    | none => none
    | some pa =>
      match packLabel b with
      | none => none
      | some pb =>
        let r := bytesCompare (lowerLabel pa) (lowerLabel pb)
        if r ≠ 0 then some r else cmpLabelsRev as bs

/-- `canonicalNameCompare` (RFC 4034 §6.1).  Both names are first fully
qualified (`dns.Fqdn`, which does not change the labels) and validated; an
invalid name or a packing failure is an error (`none`). -/
def canonicalNameCompare (n1 n2 : DName) : Option Int :=
  if ¬ isDomainName n1.toFqdn then none
  else if ¬ isDomainName n2.toFqdn then none
  else cmpLabelsRev n1.labels.reverse n2.labels.reverse

/-- `compareWithErrors`: on a comparison error the result is 0 and the error
counter is incremented. -/
def compareWithErrors (a b : DName) (errs : Nat) : Int × Nat :=
  match canonicalNameCompare a b with
  | some r => (r, errs)
  | none => (0, errs + 1)

/-- `covers` (dnssec.go): does the NSEC interval `(owner, next)` cover
`qname`?  Mirrors the source including the short-circuit evaluation of
`lastNSEC || compareWithErrors(qname, next, &errs) < 0`. -/
def covers (owner next qname : DName) : Bool :=
  let p1 := compareWithErrors qname owner 0
  if p1.1 ≤ 0 then false
  else
    let p2 := compareWithErrors owner next p1.2
    let lastNSEC := 0 ≤ p2.1
    let p3 := if lastNSEC then (true, p2.2)
              else
                let q := compareWithErrors qname next p2.2
                (q.1 < 0, q.2)
    if ¬ p3.1 then false
    else if 0 < p3.2 then false
    else true

/-! ## Resource records and messages -/

/-- The typed payload of a resource record.  The wire type is derived from
the constructor (`RData.rrtype`), matching the parser invariant of
`miekg/dns` that the header type and the concrete Go type agree. -/
inductive RData
  | a (ip : Nat)
  | aaaa (ip : Nat)
  | cname (target : DName)
  | ns (host : DName)
  | ds (keyTag algorithm digestType : Nat) (digest : List Nat)
  | dnskey (flags protocol algorithm : Nat) (publicKey : Option (List Nat))
  | rrsig (typeCovered labels keyTag : Nat) (signerName : DName) (sigId : Nat)
  | nsec (nextDomain : DName) (typeBitMap : List Nat)
  | nsec3
  | other (t : Nat)
deriving DecidableEq, Repr

/-- A resource record: owner name plus payload (class and TTL are not used
by the verified core). -/
structure RR where
  name : DName
  rdata : RData
deriving DecidableEq, Repr

def RData.rrtype : RData → Nat
  | .a _ => 1
  | .ns _ => 2
  | .cname _ => 5
  | .aaaa _ => 28
  | .ds _ _ _ _ => 43
  | .rrsig _ _ _ _ _ => 46
  | .nsec _ _ => 47
  | .dnskey _ _ _ _ => 48
  | .nsec3 => 50
  | .other t => t

def RR.rrtype (r : RR) : Nat := r.rdata.rrtype

/-- A DNS message (`dns.Msg`): rcode, the three sections, truncation bit. -/
structure Msg where
  rcode : Nat
  answer : List RR
  ns : List RR
  extra : List RR
  truncated : Bool
deriving DecidableEq, Repr

/-- The `*dns.DS` view of a record (the result of the `rr.(*dns.DS)` type
assertion together with its header name). -/
structure DSR where
  name : DName
  keyTag : Nat
  algorithm : Nat
  digestType : Nat
  digest : List Nat
deriving DecidableEq, Repr

def DSR.toRR (d : DSR) : RR := ⟨d.name, .ds d.keyTag d.algorithm d.digestType d.digest⟩

def dsOfRR (rr : RR) : Option DSR :=
  match rr.rdata with
  | .ds kt alg dt dg => some ⟨rr.name, kt, alg, dt, dg⟩
  | _ => none

/-- The `*dns.DNSKEY` view of a record.  `publicKey` holds the base64-decoded
key material (`none`: the decode in `fromBase64` fails). -/
structure DNSKEYR where
  name : DName
  flags : Nat
  protocol : Nat
  algorithm : Nat
  publicKey : Option (List Nat)
deriving DecidableEq, Repr

def dnskeyOfRR (rr : RR) : Option DNSKEYR :=
  match rr.rdata with
  | .dnskey f p alg pk => some ⟨rr.name, f, p, alg, pk⟩
  | _ => none

/-- The `*dns.RRSIG` view of a record (only the fields the core reads). -/
structure RRSIGR where
  name : DName
  typeCovered : Nat
  labels : Nat
  keyTag : Nat
  signerName : DName
  sigId : Nat
deriving DecidableEq, Repr

def sigOfRR (rr : RR) : Option RRSIGR :=
  match rr.rdata with
  | .rrsig tc lab kt sn sid => some ⟨rr.name, tc, lab, kt, sn, sid⟩
  | _ => none

/-- The `miekg/dns` cryptographic primitives the validator calls, left
uninterpreted: `KeyTag`, `ToDS` (returning the digest, `none` for an
unsupported digest type), `RRSIG.Verify` and `RRSIG.ValidityPeriod`. -/
structure Crypto where
  keyTag : DNSKEYR → Nat
  toDS : DNSKEYR → Nat → Option (List Nat)
  sigVerify : RRSIGR → DNSKEYR → List RR → Bool
  validityPeriod : RRSIGR → Nat → Bool

/-! ## Error kinds -/

/-- Error values of the validator and the resolver.  Wrapping constructors
mirror `fmt.Errorf("...: %w", err)`. -/
inductive RErr
  | noDNSKEY
  | badDS
  | noSignatures
  | missingDNSKEY
  | sigBailiwick
  | invalidSigPeriod
  | missingSigned
  | sigVerifyFailed
  | zoneNotFqdn
  | verifyErr (e : RErr)
  | emptyAnswer
  | badWildcard
  | noNsecRecords
  | dsNotChild
  | badReferralDS
  | dsNoDelegation
  | typeExists
  | cnameExists
  | badInsecureDelegation
  | nsNotInBitmap
  | invalidNSOwner
  | badReferral
  | noValidNsec
  | missingNameProof
  | missingWildcardProof
  | unexpectedRcode (r : Nat)
  | zoneQnameNotFqdn
  | notSynced
  | servFail
  | hip5NotSupported
  | badCNAMETarget
  | maxDepthReached
  | rootApex
  | extCheckFailed (e : RErr)
  | hip5ResolutionFailed (e : RErr)
  | rcodeFailed (r : Nat)
  | truncatedResp
  | nsOwnerMismatch
  | qnameNotChild
  | dsOwnerMismatch
  | readFailed
  | dsNoDelegations
  | nilRR
  | handlerFailure (n : Nat)
  | outOfFuel
deriving DecidableEq, Repr

/-- `errors.Is(err, resolver.ErrServFail)`: unwrap through the wrapping
constructors. -/
def RErr.isServFail : RErr → Bool
  | .servFail => true
  | .verifyErr e => e.isServFail
  | .extCheckFailed e => e.isServFail
  | .hip5ResolutionFailed e => e.isServFail
  | _ => false

def errIsServFail : Option RErr → Bool
  | none => false
  | some e => e.isServFail

/-! ## Association lists standing for Go maps -/

/-- Go map assignment `m[k] = v` on the insertion-ordered representation:
replace in place if present, otherwise append. -/
def alInsert {κ α : Type} [DecidableEq κ] : List (κ × α) → κ → α → List (κ × α)
  | [], k, v => [(k, v)]
  | (k', v') :: rest, k, v =>
    if k' = k then (k, v) :: rest else (k', v') :: alInsert rest k v

/-- Go map lookup `v, ok := m[k]`. -/
def alLookup {κ α : Type} [DecidableEq κ] : List (κ × α) → κ → Option α
  | [], _ => none
  | (k', v') :: rest, k => if k' = k then some v' else alLookup rest k

/-! ## filterDS -/

def supportedAlgorithms : List Nat := [8, 10, 13, 14, 15]

def supportedDigests : List Nat := [2, 4]

def isAlgorithmSupported (algo : Nat) : Bool := supportedAlgorithms.contains algo

def isDigestSupported (digest : Nat) : Bool := supportedDigests.contains digest

/-- The `(keyTag, algorithm)` map key of `filterDS`. -/
structure DSKey where
  keyTag : Nat
  algorithm : Nat
deriving DecidableEq, Repr

/-- The record walk of `filterDS`: owner check first, then the `*dns.DS`
type assertion, then algorithm/digest support, then strongest-digest
selection into the `supported` map. -/
def filterDSLoop (zone : DName) : List RR → List (DSKey × DSR) → Except RErr (List (DSKey × DSR))
  | [], m => .ok m
  | rr :: rest, m =>
    if ¬ zone.equalFold rr.name then .error .badDS
    else
      match dsOfRR rr with
      | none => filterDSLoop zone rest m
      | some ds =>
        if ¬ isAlgorithmSupported ds.algorithm ∨ ¬ isDigestSupported ds.digestType then
          filterDSLoop zone rest m
        else
          let key : DSKey := ⟨ds.keyTag, ds.algorithm⟩
          match alLookup m key with
          | some ds2 =>
            if ds.digestType ≤ ds2.digestType then filterDSLoop zone rest m
            else filterDSLoop zone rest (alInsert m key ds)
          | none => filterDSLoop zone rest (alInsert m key ds)

/-- `filterDS` (dnssec.go). -/
def filterDS (zone : DName) (dsSet : List RR) : Except RErr (List DSR) :=
  if ¬ zone.fqdn then .error .zoneNotFqdn
  else (filterDSLoop zone dsSet []).map (fun m => m.map (fun p => p.2))

/-! ## shouldDowngradeKey -/

/-- Big-endian byte accumulation (`expo <<= 8; expo |= v` and
`big.Int.SetBytes`). -/
def bytesToNat (bs : List Nat) : Nat := bs.foldl (fun acc v => acc * 256 + v) 0

/-- `big.Int.BitLen`: 0 for 0, otherwise ⌊log₂ n⌋ + 1.  Fuel-based so it
evaluates by kernel reduction. -/
def bitLenAux : Nat → Nat → Nat
  | 0, _ => 0
  | fuel + 1, n => if n = 0 then 0 else bitLenAux fuel (n / 2) + 1

def bitLen (n : Nat) : Nat := bitLenAux n n

/-- The RFC 2537/3110 exponent length field: byte 0, or bytes 1–2 as a
16-bit number when byte 0 is zero. -/
def rsaExpLen (keybuf : List Nat) : Nat :=
  if keybuf.headD 0 = 0 then 256 * keybuf.getD 1 0 + keybuf.getD 2 0 else keybuf.headD 0

/-- Offset of the exponent bytes. -/
def rsaKeyOff (keybuf : List Nat) : Nat := if keybuf.headD 0 = 0 then 3 else 1

/-- Offset of the modulus bytes. -/
def rsaModOff (keybuf : List Nat) : Nat := rsaKeyOff keybuf + rsaExpLen keybuf

/-- The exponent value (`keybuf[keyoff:modoff]` accumulated big-endian). -/
def rsaExpVal (keybuf : List Nat) : Nat :=
  bytesToNat ((keybuf.drop (rsaKeyOff keybuf)).take (rsaExpLen keybuf))

/-- The modulus bytes `keybuf[modoff:]`. -/
def rsaModBytes (keybuf : List Nat) : List Nat := keybuf.drop (rsaModOff keybuf)

/-- `shouldDowngradeKey` (dnssec.go): RSA/SHA-256 and RSA/SHA-512 keys with
an oversized exponent or a weak modulus are downgrade candidates. -/
def shouldDowngradeKey (k : DNSKEYR) (minKeySize : Nat) : Bool :=
  if k.algorithm ≠ 10 ∧ k.algorithm ≠ 8 then false
  else
    match k.publicKey with
    | none => false
    | some keybuf =>
      if keybuf.length < 1 + 1 + 64 then false
      else
        let explen := rsaExpLen keybuf
        let keyoff := rsaKeyOff keybuf
        if 4 < explen then true
        else if explen = 0 ∨ keybuf.getD keyoff 0 = 0 then false
        else
          let modoff := keyoff + explen
          let modlen := keybuf.length - modoff
          if modlen < 64 ∨ 512 < modlen ∨ keybuf.getD modoff 0 = 0 then false
          else
            let expo := rsaExpVal keybuf
            if 2 ^ 31 - 1 < expo then true
            else
              let n := bytesToNat (keybuf.drop modoff)
              decide (bitLen n < minKeySize)

/-! ## VerifyDNSKeys -/

/-- The inner answer walk of `VerifyDNSKeys` for one surviving DS: simple
checks (protocol, flags, algorithm, key tag, digest of `ToDS`), recording
matches into the key-tag map. -/
def matchOne (c : Crypto) (ds : DSR) : List RR → List (Nat × DNSKEYR) → List (Nat × DNSKEYR)
  | [], acc => acc
  | rr :: rest, acc =>
    if rr.rrtype ≠ 48 then matchOne c ds rest acc
    else
      match dnskeyOfRR rr with
      | none => matchOne c ds rest acc
      | some key =>
        if key.protocol ≠ 3 then matchOne c ds rest acc
        else if key.flags ≠ 256 ∧ key.flags ≠ 257 then matchOne c ds rest acc
        else if key.algorithm ≠ ds.algorithm then matchOne c ds rest acc
        else
          let tag := c.keyTag key
          if tag ≠ ds.keyTag then matchOne c ds rest acc
          else
            match c.toDS key ds.digestType with
            | none => matchOne c ds rest acc
            | some dig =>
              if ¬ (dig.map lowerByte == ds.digest.map lowerByte) then matchOne c ds rest acc
              else matchOne c ds rest (alInsert acc tag key)

/-- The matching stage of `VerifyDNSKeys`: walk the answer DNSKEYs for every
surviving DS. -/
def matchingKeys (c : Crypto) (msg : Msg) (dsSet : List DSR) : List (Nat × DNSKEYR) :=
  dsSet.foldl (fun acc ds => matchOne c ds msg.answer acc) []

/-- The strength-filter stage of `VerifyDNSKeys`: keep only matched keys
that are not downgrade candidates. -/
def strongKeys (c : Crypto) (m : List (Nat × DNSKEYR)) (minKeySize : Nat) : List (Nat × DNSKEYR) :=
  m.foldl
    (fun acc kv =>
      if ¬ shouldDowngradeKey kv.2 minKeySize then alInsert acc (c.keyTag kv.2) kv.2 else acc)
    []

/-- The final trusted-key collection of `VerifyDNSKeys` from the pruned
answer section. -/
def trustedKeysOf (c : Crypto) (answer : List RR) : List (Nat × DNSKEYR) :=
  answer.foldl
    (fun acc rr =>
      if rr.rrtype = 48 then
        match dnskeyOfRR rr with
        | some k => alInsert acc (c.keyTag k) k
        | none => acc
      else acc)
    []

/-! ## verifySignatures -/

/-- `extractRRSet` (single covered type, as used by the core): records of
the requested type whose owner matches `name` case-insensitively (an empty
`name` — the Go empty string — matches any owner). -/
def extractRRSet (rrs : List RR) (name : DName) (ty : Nat) : List RR :=
  rrs.filter (fun r =>
    r.rrtype = ty ∧ ((name.labels = [] ∧ name.fqdn = false) ∨ name.equalFold r.name))

/-- The mutable state of the `verifySignatures` walk: the rebuilt sections,
the preserved unsigned delegations, the downgrade flag and the last
recoverable error. -/
structure WalkState where
  answer : List RR
  ns : List RR
  extra : List RR
  delegations : List RR
  downgrade : Bool
  lastErr : Option RErr
deriving DecidableEq, Repr

/-- One section walk of `verifySignatures`.  `section0` is the original
section slice (used by `extractRRSet`); `vs` is the per-section
`verifiedSets` map. -/
def sectionStep (c : Crypto) (zone qname : DName) (keys : List (Nat × DNSKEYR))
    (t minKeySize sectionId : Nat) (section0 : List RR) :
    List RR → WalkState → List (DName × Nat) → WalkState
  | [], st, _ => st
  | rr :: rest, st, vs =>
    if sectionId = 1 ∧ rr.rrtype = 2 then
      -- keep delegations, they are unsigned and verified later
      let st' :=
        if IsSubDomainStrict zone rr.name ∧ isSubDomain rr.name qname then
          { st with delegations := st.delegations ++ [rr] }
        else st
      sectionStep c zone qname keys t minKeySize sectionId section0 rest st' vs
    else if rr.rrtype = 46 then
      match sigOfRR rr with
      | none => sectionStep c zone qname keys t minKeySize sectionId section0 rest st vs
      | some sig =>
        let sigName := rr.name.canonical
        if (sigName, sig.typeCovered) ∈ vs then
          sectionStep c zone qname keys t minKeySize sectionId section0 rest st vs
        else if ¬ isSubDomain zone sigName then
          sectionStep c zone qname keys t minKeySize sectionId section0 rest
            { st with lastErr := some .sigBailiwick } vs
        else
          match alLookup keys sig.keyTag with
          | none =>
            sectionStep c zone qname keys t minKeySize sectionId section0 rest
              { st with lastErr := some .missingDNSKEY } vs
          | some key =>
            if ¬ key.name.equalFold sig.signerName then
              sectionStep c zone qname keys t minKeySize sectionId section0 rest
                { st with lastErr := some .missingDNSKEY } vs
            else if shouldDowngradeKey key minKeySize then
              sectionStep c zone qname keys t minKeySize sectionId section0 rest
                { st with downgrade := true } vs
            else
              let rrset := extractRRSet section0 rr.name sig.typeCovered
              if rrset.length = 0 then
                sectionStep c zone qname keys t minKeySize sectionId section0 rest
                  { st with lastErr := some .missingSigned } vs
              else if ¬ c.sigVerify sig key rrset then
                sectionStep c zone qname keys t minKeySize sectionId section0 rest
                  { st with lastErr := some .sigVerifyFailed } vs
              else if ¬ c.validityPeriod sig t then
                sectionStep c zone qname keys t minKeySize sectionId section0 rest
                  { st with lastErr := some .invalidSigPeriod } vs
              else
                let vs' := vs ++ [(sigName, sig.typeCovered)]
                let st' :=
                  if sectionId = 0 then { st with answer := st.answer ++ rrset ++ [rr] }
                  else if sectionId = 1 then { st with ns := st.ns ++ rrset ++ [rr] }
                  else { st with extra := st.extra ++ rrset ++ [rr] }
                sectionStep c zone qname keys t minKeySize sectionId section0 rest st' vs'
    else sectionStep c zone qname keys t minKeySize sectionId section0 rest st vs

/-- The full three-section walk of `verifySignatures`. -/
def walkAll (c : Crypto) (zone qname : DName) (msg : Msg) (keys : List (Nat × DNSKEYR))
    (t minKeySize : Nat) : WalkState :=
  let st0 : WalkState := ⟨[], [], [], [], false, none⟩
  let st1 := sectionStep c zone qname keys t minKeySize 0 msg.answer msg.answer st0 []
  let st2 := sectionStep c zone qname keys t minKeySize 1 msg.ns msg.ns st1 []
  sectionStep c zone qname keys t minKeySize 2 msg.extra msg.extra st2 []

/-- `verifySignatures` (dnssec.go): verify and prune, returning the rebuilt
message, the secure bit and an optional error.  On the downgrade fallback
the original sections are restored. -/
def verifySignatures (c : Crypto) (zone qname : DName) (msg : Msg)
    (keys : List (Nat × DNSKEYR)) (t minKeySize : Nat) : Msg × Bool × Option RErr :=
  let st := walkAll c zone qname msg keys t minKeySize
  if 0 < st.answer.length ∨ 0 < st.ns.length then
    ({ msg with answer := st.answer,
                ns := if 0 < st.delegations.length then st.ns ++ st.delegations else st.ns,
                extra := st.extra }, true, none)
  else if st.downgrade then (msg, false, none)
  else
    match st.lastErr with
    | some e => ({ msg with answer := st.answer, ns := st.ns, extra := st.extra },
                 false, some (.verifyErr e))
    | none => ({ msg with answer := st.answer, ns := st.ns, extra := st.extra },
               false, some .noSignatures)

/-- `VerifyDNSKeys` (dnssec.go).  The empty key list plays the part of the
Go `nil` map: `.ok []` is the insecure no-error outcome. -/
def VerifyDNSKeys (c : Crypto) (zone : DName) (msg : Msg) (parentDSSet : List RR)
    (t minKeySize : Nat) : Except RErr (List (Nat × DNSKEYR)) :=
  match filterDS zone parentDSSet with
  | .error e => .error e
  | .ok dsSet =>
    if dsSet.length = 0 then .ok []
    else
      let mk := matchingKeys c msg dsSet
      if mk.length = 0 then .error .noDNSKEY
      else
        let validKeys := strongKeys c mk minKeySize
        if validKeys.length = 0 then .ok []
        else
          match verifySignatures c zone zone msg validKeys t minKeySize with
          | (_, _, some e) => .error e
          | (msg1, secure, none) =>
            if ¬ secure then .ok []
            else if msg1.answer.length = 0 then .error .noDNSKEY
            else .ok (trustedKeysOf c msg1.answer)

/-! ## verifyAnswer -/

/-- The answer-sanitising walk of `verifyAnswer`: keep qname-owned records
of type qtype/CNAME and qname-owned RRSIGs covering qtype/CNAME, flagging
wildcard expansion when a kept RRSIG has fewer labels than qname. -/
def verifyAnswerScan (qname : DName) (qtype lab : Nat) :
    List RR → List RR → Bool → List RR × Bool
  | [], acc, wc => (acc, wc)
  | rr :: rest, acc, wc =>
    let t := rr.rrtype
    if t = qtype ∨ t = 5 then
      if qname.equalFold rr.name then verifyAnswerScan qname qtype lab rest (acc ++ [rr]) wc
      else verifyAnswerScan qname qtype lab rest acc wc
    else if t = 46 ∧ qname.equalFold rr.name then
      match sigOfRR rr with
      | some sig =>
        if sig.typeCovered ≠ qtype ∧ sig.typeCovered ≠ 5 then
          verifyAnswerScan qname qtype lab rest acc wc
        else verifyAnswerScan qname qtype lab rest (acc ++ [rr]) (wc ∨ sig.labels < lab)
      | none => verifyAnswerScan qname qtype lab rest acc wc
    else verifyAnswerScan qname qtype lab rest acc wc

/-- `verifyAnswer` (dnssec.go). -/
def verifyAnswer (msg : Msg) (qname : DName) (qtype : Nat) : Msg × Bool × Option RErr :=
  if msg.answer.length = 0 then (msg, false, some .emptyAnswer)
  else
    let lab := qname.countLabel
    let p := verifyAnswerScan qname qtype lab msg.answer [] false
    if p.1.length = 0 then (msg, false, some .emptyAnswer)
    else
      let msg' := { msg with answer := p.1 }
      if p.2 then
        let nx := msg.ns.any (fun rr =>
          rr.rrtype = 47 &&
            match rr.rdata with
            | .nsec nextDomain _ => covers rr.name nextDomain qname
            | _ => false)
        if nx then (msg', true, none) else (msg', false, some .badWildcard)
      else (msg', true, none)

/-! ## verifyNameError -/

/-- The wildcard-proof search of `verifyNameError`: for increasing `i`,
check whether the NSEC covers `*.` joined to qname minus its first `i`
labels, stopping when the synthetic name leaves the zone's bailiwick. -/
def wildcardSearch (zone owner next : DName) (parts : List Label) : Nat → Nat → Bool
  | _, 0 => false
  | i, fuel + 1 =>
    if parts.length < i then false
    else
      let domain : DName := ⟨[42] :: parts.drop i, true⟩
      if ¬ isSubDomain zone domain then false
      else if covers owner next domain then true
      else wildcardSearch zone owner next parts (i + 1) fuel

/-- The NSEC walk of `verifyNameError`, accumulating the name proof and the
wildcard proof. -/
def verifyNameErrorLoop (zone qname : DName) (parts : List Label) :
    List RR → Bool → Bool → Bool × Bool
  | [], np, wp => (np, wp)
  | rr :: rest, np, wp =>
    if np ∧ wp then (np, wp)
    else if rr.rrtype = 47 then
      match rr.rdata with
      | .nsec nextDomain _ =>
        let np' := np ∨ covers rr.name nextDomain qname
        let wp' := wp ∨ wildcardSearch zone rr.name nextDomain parts 1 (parts.length + 1)
        verifyNameErrorLoop zone qname parts rest np' wp'
      | _ => verifyNameErrorLoop zone qname parts rest np wp
    else verifyNameErrorLoop zone qname parts rest np wp

/-- `verifyNameError` (dnssec.go): an NXDomain proof needs both a covering
NSEC for qname and a covering NSEC for the closest in-bailiwick wildcard. -/
def verifyNameError (msg : Msg) (zone qname : DName) : Bool × Option RErr :=
  let parts := qname.labels
  let p := verifyNameErrorLoop zone qname parts msg.ns false false
  if ¬ p.1 then (false, some .missingNameProof)
  else if ¬ p.2 then (false, some .missingWildcardProof)
  else (true, none)

/-! ## verifyNoData -/

/-- The type-bitmap walk of the qname-matching NSEC in `verifyNoData`:
qtype or CNAME present is a hard failure; record DS and NS presence. -/
def bitmapScan (qtype : Nat) : List Nat → Bool → Bool → Except RErr (Bool × Bool)
  | [], hasDS, hasDel => .ok (hasDS, hasDel)
  | ty :: rest, hasDS, hasDel =>
    if ty = qtype then .error .typeExists
    else if ty = 5 then .error .cnameExists
    else if ty = 43 then bitmapScan qtype rest true hasDel
    else if ty = 2 then bitmapScan qtype rest hasDS true
    else bitmapScan qtype rest hasDS hasDel

/-- The delegation check of the qname-matching NSEC branch: every NS record
in the authority section must be consistent with the NSEC bitmap and owner. -/
def checkDelegation (zone nsecName : DName) (hasDS hasDel : Bool) : List RR → Option RErr
  | [] => none
  | rr :: rest =>
    if rr.rrtype = 2 then
      if hasDS then some .badInsecureDelegation
      else if ¬ hasDel then some .nsNotInBitmap
      else if ¬ rr.name.equalFold nsecName then some .invalidNSOwner
      else if rr.name.equalFold zone then some .badReferral
      else checkDelegation zone nsecName hasDS hasDel rest
    else checkDelegation zone nsecName hasDS hasDel rest

/-- The NS scan of the DS branch of `verifyNoData`: the DS owner must match
every NS owner; returns whether any NS was present. -/
def dsReferralLoop (dsName : DName) : List RR → Bool → Except RErr Bool
  | [], hasNs => .ok hasNs
  | rr :: rest, hasNs =>
    if rr.rrtype = 2 then
      if ¬ rr.name.equalFold dsName then .error .badReferralDS
      else dsReferralLoop dsName rest true
    else dsReferralLoop dsName rest hasNs

/-- The authority walk of `verifyNoData`. -/
def verifyNoDataLoop (msg : Msg) (zone qname : DName) (qtype : Nat) :
    List RR → Bool × Option RErr
  | [] => (false, some .noValidNsec)
  | rr :: rest =>
    if rr.rrtype = 50 then
      -- NSEC3: no authenticated denial support, downgrade when in bailiwick
      if isSubDomain zone rr.name then (false, none)
      else verifyNoDataLoop msg zone qname qtype rest
    else if rr.rrtype = 43 then
      if ¬ IsSubDomainStrict zone rr.name then (false, some .dsNotChild)
      else
        match dsReferralLoop rr.name msg.ns false with
        | .error e => (false, some e)
        | .ok true => (true, none)
        | .ok false => (false, some .dsNoDelegation)
    else if rr.rrtype = 47 then
      match rr.rdata with
      | .nsec nextDomain typeBitMap =>
        if ¬ rr.name.equalFold qname then verifyNameError msg zone qname
        else if ¬ isSubDomain zone nextDomain then verifyNoDataLoop msg zone qname qtype rest
        else
          match bitmapScan qtype typeBitMap false false with
          | .error e => (false, some e)
          | .ok (hasDS, hasDel) =>
            match checkDelegation zone rr.name hasDS hasDel msg.ns with
            | some e => (false, some e)
            | none => (true, none)
      | _ => verifyNoDataLoop msg zone qname qtype rest
    else verifyNoDataLoop msg zone qname qtype rest

/-- `verifyNoData` (dnssec.go). -/
def verifyNoData (msg : Msg) (zone qname : DName) (qtype : Nat) : Bool × Option RErr :=
  if msg.ns.length = 0 then (false, some .noNsecRecords)
  else verifyNoDataLoop msg zone qname qtype msg.ns

/-! ## Verify -/

/-- `Verify` (dnssec.go): signature verification and pruning, then rcode
dispatch to answer / no-data / name-error verification. -/
def Verify (c : Crypto) (msg : Msg) (zone qname : DName) (qtype : Nat)
    (keys : List (Nat × DNSKEYR)) (t minRSA : Nat) : Msg × Bool × Option RErr :=
  if ¬ zone.fqdn ∨ ¬ qname.fqdn then (msg, false, some .zoneQnameNotFqdn)
  else
    match verifySignatures c zone qname msg keys t minRSA with
    | (msg1, _, some e) => (msg1, false, some e)
    | (msg1, secure, none) =>
      if ¬ secure then (msg1, false, none)
      else if msg1.rcode = 0 then
        if msg1.answer.length = 0 then
          let p := verifyNoData msg1 zone qname qtype
          (msg1, p.1, p.2)
        else verifyAnswer msg1 qname qtype
      else if msg1.rcode = 3 then
        let p := verifyNameError msg1 zone qname
        (msg1, p.1, p.2)
      else (msg1, false, some (.unexpectedRcode msg1.rcode))

/-! ## HIP-5 resolver (package `resolvers`)

The effectful resolver is embedded as a fuel-indexed interpreter `run` over
call descriptors: each constructor of `Call` is one of the mutually
recursive source functions (`queryInternal`, `attemptHIP5Resolution`,
`flatten`, the CNAME loop of `resolveCNAME`, `resolveNS`), and named
wrappers below restore the source names.  The fuel only bounds the
interpreter; every claim is either fuel-independent or instantiated with
ample fuel. -/

/-- `resolver.DNSResult`. -/
structure DNSResult where
  records : List RR
  secure : Bool
  err : Option RErr
deriving DecidableEq, Repr

/-- Observable events of one resolution: entry of `queryInternal`, a stub
consultation, a trusted-root exchange, a handler invocation (tagged with the
depth of the enclosing `attemptHIP5Resolution`), and an entry of `flatten`. -/
inductive Ev
  | query (name : DName) (qtype depth : Nat)
  | stub (name : DName) (qtype : Nat)
  | root (tld : DName)
  | handler (tag qname : DName) (depth : Nat)
  | flattenCall (depth : Nat)
deriving DecidableEq, Repr

/-- The recursion depth an event occurred at (0 for the depth-less stub and
root oracle events). -/
def Ev.dep : Ev → Nat
  | .query _ _ d => d
  | .handler _ _ d => d
  | .flattenCall d => d
  | _ => 0

/-- The oracle environment: sync predicate, stub resolver, trusted-root
exchange, handler registry, delegated-nameserver exchange, stub IP lookup,
wall-clock time, and the crypto primitives. -/
structure REnv where
  crypto : Crypto
  synced : Bool
  stub : DName → Nat → DNSResult
  exchangeRoot : DName → Except RErr Msg
  handlers : List (DName × (DName → Nat → RR → Except RErr (List RR)))
  exchange : DName → Nat → Nat → Except RErr Msg
  lookupIP : DName → Except RErr (List Nat)
  time : Nat

/-- Modelled from the spec: `LastNLabels` — its defining util file is not
under `src/`, only its tests and callers are.  Per spec §8 S7
(`lastNLabels("www.example.FOO.", 5) = "www.example.foo"`,
`lastNLabels("example.com", 1) = "com"`): the last `min(n, count)` labels,
lowercased, joined without a trailing dot. -/
def LastNLabels (n : DName) (k : Nat) : DName :=
  ⟨(n.labels.map lowerLabel).drop (n.labels.length - k), false⟩

/-- The reserved tag `eth` as produced by `LastNLabels`. -/
def ethTag : DName := ⟨[[101, 116, 104]], false⟩

/-- `eth.` fully qualified. -/
def ethFqdn : DName := ⟨[[101, 116, 104]], true⟩

/-- The label `_eth`. -/
def underscoreEth : Label := [95, 101, 116, 104]

/-- The label `0x00000000000C2E074eC69A0dFb2997BA6C7d2e1e` (ethereum.go). -/
def ensRegistryLabel : Label :=
  [48, 120, 48, 48, 48, 48, 48, 48, 48, 48, 48, 48, 48, 67, 50, 69, 48, 55, 52, 101,
   67, 54, 57, 65, 48, 100, 70, 98, 50, 57, 57, 55, 66, 65, 54, 67, 55, 100, 50, 101, 49, 101]

/-- The hardcoded `.eth` NS rrset (ethereum.go `ethNS`). -/
def ethNS : List RR := [⟨ethFqdn, .ns ⟨[ensRegistryLabel, underscoreEth], true⟩⟩]

/-- `lookupExtensions` (hip5): the hardcoded `eth.` fast path, otherwise an
`NS(tld)` query to the trusted root, keeping only NS records whose host's
last label is a registered handler tag.  The root exchange is recorded as a
`.root` event. -/
def lookupExtensions (env : REnv) (tld : DName) : Except RErr (List RR) × List Ev :=
  let tldF := tld.toFqdn
  if tldF = ethFqdn then (.ok ethNS, [])
  else
    match env.exchangeRoot tldF with
    | .error e => (.error e, [.root tldF])
    | .ok r =>
      if r.rcode ≠ 0 then (.error (.rcodeFailed r.rcode), [.root tldF])
      else if r.truncated then (.error .truncatedResp, [.root tldF])
      else
        (.ok (r.ns.filter (fun rr =>
          match rr.rdata with
          | .ns host => (alLookup env.handlers (LastNLabels host 1)).isSome
          | _ => false)), [.root tldF])

/-- `runHandlers` (hip5): invoke the registered handler of each extension NS
in order, returning the first success, else the last error.  The `depth`
argument only tags the emitted `.handler` events with the depth of the
enclosing `attemptHIP5Resolution`. -/
def runHandlers (env : REnv) (qname : DName) (qtype depth : Nat) :
    List RR → Option RErr → (List RR × Option RErr) × List Ev
  | [], lastErr => (([], lastErr), [])
  | rr :: rest, lastErr =>
    match rr.rdata with
    | .ns host =>
      let tag := LastNLabels host 1
      match alLookup env.handlers tag with
      | some hf =>
        match hf qname qtype rr with
        | .ok res => ((res, none), [.handler tag qname depth])
        | .error e =>
          let p := runHandlers env qname qtype depth rest (some e)
          (p.1, .handler tag qname depth :: p.2)
      | none => runHandlers env qname qtype depth rest lastErr
    | _ => runHandlers env qname qtype depth rest lastErr

/-- `filterType` (hip5). -/
def filterType (rrs : List RR) (qtype : Nat) : List RR :=
  rrs.filter (fun rr => rr.rrtype = qtype)

/-- The owner-name accumulation of `getDelegatedName` (zone starts as the
empty Go string). -/
def delegZoneLoop (zone : DName) : List RR → Except RErr DName
  | [] => .ok zone
  | rr :: rest =>
    if zone = ⟨[], false⟩ then delegZoneLoop rr.name.canonical rest
    else if ¬ zone.equalFold rr.name then .error .nsOwnerMismatch
    else delegZoneLoop zone rest

/-- `getDelegatedName` (hip5). -/
def getDelegatedName (rrs ds : List RR) (qname : DName) : Except RErr DName :=
  match delegZoneLoop ⟨[], false⟩ rrs with
  | .error e => .error e
  | .ok zone =>
    if ¬ isSubDomain zone qname then .error .qnameNotChild
    else if ds.any (fun rr => ¬ zone.equalFold rr.name) then .error .dsOwnerMismatch
    else .ok zone

/-- `lookupNSAddr` (hip5): glue addresses from the extra section, else a
stub IP lookup of the NS host. -/
def lookupNSAddr (env : REnv) (rr : RR) (extra : List RR) : Except RErr (List Nat) :=
  match rr.rdata with
  | .ns host =>
    let ips := extra.foldl
      (fun acc glue =>
        if ¬ glue.name.equalFold host then acc
        else
          match glue.rdata with
          | .a ip => acc ++ [ip]
          | .aaaa ip => acc ++ [ip]
          | _ => acc)
      []
    if ips.length ≠ 0 then .ok ips else env.lookupIP host
  | _ => .error .nilRR

/-- The address loop of `exchangeNS` (hip5): try each IP, treating
truncation as a failure, keeping the Go named-return behaviour (the last
response and error survive the loop). -/
def exchangeNSLoop (env : REnv) (qname : DName) (qtype : Nat) :
    List Nat → Option Msg → Option RErr → Option Msg × Option RErr
  | [], res, err => (res, err)
  | ip :: rest, _, _ =>
    match env.exchange qname qtype ip with
    | .error e => exchangeNSLoop env qname qtype rest none (some e)
    | .ok m =>
      if m.truncated then exchangeNSLoop env qname qtype rest (some m) (some .truncatedResp)
      else (some m, none)

/-- `exchangeNS` (hip5). -/
def exchangeNS (env : REnv) (ips : List Nat) (qname : DName) (qtype : Nat) :
    Option Msg × Option RErr :=
  exchangeNSLoop env qname qtype ips none none

/-- The nameserver loop of `resolveNS`: look up each NS host's addresses and
stop at the first successful exchange; the message and the address list of
the last attempt survive the loop (Go variable scoping). -/
def resolveNSLoop (env : REnv) (extra : List RR) (qname : DName) (qtype : Nat) :
    List RR → Option Msg → List Nat → Option Msg × List Nat
  | [], msg?, ips => (msg?, ips)
  | rr :: rest, msg?, ips =>
    match lookupNSAddr env rr extra with
    | .error _ => resolveNSLoop env extra qname qtype rest msg? ips
    | .ok nsIPs =>
      match exchangeNS env nsIPs qname qtype with
      | (res, none) => (res, nsIPs)
      | (res, some _) => resolveNSLoop env extra qname qtype rest res nsIPs

/-- `queryDNSKeys` (hip5): fetch DNSKEY of the delegated name from the same
nameservers and verify against the DS set.  A nil message with a nil error
(empty address list) would fault in Go; it is mapped to an error here. -/
def queryDNSKeys (env : REnv) (ips : List Nat) (ds : List RR) (delegatedName : DName) :
    Except RErr (List (Nat × DNSKEYR)) :=
  match exchangeNS env ips delegatedName 48 with
  | (_, some e) => .error e
  | (some m, none) => VerifyDNSKeys env.crypto delegatedName m ds env.time 2048
  | (none, none) => .error .nilRR

/-- The result triple of the flattener functions (`[]dns.RR, bool, error`). -/
abbrev FRes := List RR × Bool × Option RErr

def DNSResult.toTriple (r : DNSResult) : FRes := (r.records, r.secure, r.err)

/-- The tail of `queryInternal` after `attemptHIP5Resolution` returns:
handler success wins; `errHIP5NotSupported` falls back to a remembered stub
result; any other error is surfaced. -/
def hip5Finish (stubRes : Option DNSResult) : FRes → DNSResult
  | (rrs, secure, none) => ⟨rrs, secure, none⟩
  | (_, _, some e) =>
    match stubRes with
    | some res => if e = .hip5NotSupported then res else ⟨[], false, some e⟩
    | none => ⟨[], false, some e⟩

/-- Call descriptors of the mutually recursive resolver functions. -/
inductive Call
  | query (name : DName) (qtype depth : Nat)
  | attempt (tld qname : DName) (qtype depth : Nat)
  | flattenC (rrs extra : List RR) (secure : Bool) (qname : DName) (qtype depth : Nat)
  | cnameLoop (lst : List RR) (lastErr : Option RErr) (qname : DName) (qtype depth : Nat)
  | nsChase (rrs ds extra : List RR) (qname : DName) (qtype depth : Nat)

/-- The fuel-indexed interpreter of the resolver.  One constructor of
`Call` per source function; each branch mirrors its Go body, and emits the
trace of that body's external interactions. -/
def run (env : REnv) : Nat → Call → FRes × List Ev
  | 0, _ => (([], false, some .outOfFuel), [])
  | fuel + 1, .query name qtype depth =>
    -- queryInternal (hip5)
    let e0 : List Ev := [.query name qtype depth]
    if ¬ env.synced then (([], false, some .notSynced), e0)
    else
      let nameC := name.canonical
      let tld := LastNLabels nameC 1
      if tld ≠ ethTag then
        let res := env.stub nameC qtype
        let e1 := e0 ++ [Ev.stub nameC qtype]
        if res.err = none ∨ ¬ errIsServFail res.err then (res.toTriple, e1)
        else
          let p := run env fuel (.attempt tld nameC qtype depth)
          ((hip5Finish (some res) p.1).toTriple, e1 ++ p.2)
      else
        let p := run env fuel (.attempt tld nameC qtype depth)
        ((hip5Finish none p.1).toTriple, e0 ++ p.2)
  | fuel + 1, .attempt tld qname qtype depth =>
    -- attemptHIP5Resolution (hip5)
    if tld = ⟨[], false⟩ then (([], false, some .rootApex), [])
    else
      match lookupExtensions env tld with
      | (.error e, ev) => (([], false, some (.extCheckFailed e)), ev)
      | (.ok hip5Res, ev) =>
        if 0 < hip5Res.length then
          match runHandlers env qname qtype depth hip5Res none with
          | ((_, some e), ev2) => (([], false, some (.hip5ResolutionFailed e)), ev ++ ev2)
          | ((rrs, none), ev2) =>
            match run env fuel (.flattenC rrs [] true qname qtype depth) with
            | ((rrs', secure, none), ev3) =>
              ((filterType rrs' qtype, secure, none), ev ++ ev2 ++ ev3)
            | ((_, _, some e), ev3) => (([], false, some e), ev ++ ev2 ++ ev3)
        else (([], false, some .hip5NotSupported), ev)
  | fuel + 1, .flattenC rrs extra secure qname qtype depth =>
    -- flatten (hip5): the joint CNAME/NS depth bound
    let e0 : List Ev := [.flattenCall depth]
    if 10 < depth then (([], false, some (.hip5ResolutionFailed .maxDepthReached)), e0)
    else
      let cnames := rrs.filter (fun rr => match rr.rdata with | .cname _ => true | _ => false)
      let nss := rrs.filter (fun rr => match rr.rdata with | .ns _ => true | _ => false)
      let ds0 := rrs.filter (fun rr => match rr.rdata with | .ds _ _ _ _ => true | _ => false)
      let ds := if ¬ secure then [] else ds0
      if 0 < cnames.length then
        let p := run env fuel (.cnameLoop cnames none qname qtype depth)
        (p.1, e0 ++ p.2)
      else if 0 < nss.length then
        let p := run env fuel (.nsChase nss ds extra qname qtype depth)
        (p.1, e0 ++ p.2)
      else if 0 < ds.length then (([], false, some .dsNoDelegations), e0)
      else ((rrs, secure, none), e0)
  | fuel + 1, .cnameLoop lst lastErr qname qtype depth =>
    -- the loop body of resolveCNAME (hip5)
    match lst with
    | [] => (([], false, lastErr), [])
    | rr :: rest =>
      match rr.rdata with
      | .cname target =>
        if target.canonical = qname then (([], false, some .badCNAMETarget), [])
        else
          let p := run env fuel (.query target qtype (depth + 1))
          match p.1 with
          | (_, _, some e) =>
            let q := run env fuel (.cnameLoop rest (some e) qname qtype depth)
            (q.1, p.2 ++ q.2)
          | (records, secure, none) => ((records, secure, none), p.2)
      | _ => run env fuel (.cnameLoop rest lastErr qname qtype depth)
  | fuel + 1, .nsChase rrs ds extra qname qtype depth =>
    -- resolveNS (hip5)
    match getDelegatedName rrs ds qname with
    | .error e => (([], false, some e), [])
    | .ok delegatedName =>
      match resolveNSLoop env extra qname qtype rrs none [] with
      | (none, _) => (([], false, some .readFailed), [])
      | (some msg, nsIPs) =>
        match (if 0 < ds.length then queryDNSKeys env nsIPs ds delegatedName else .ok []) with
        | .error e => (([], false, some e), [])
        | .ok keys =>
          if 0 < keys.length then
            match Verify env.crypto msg delegatedName qname qtype keys env.time 2048 with
            | (_, _, some e) => (([], false, some e), [])
            | (msgV, secure, none) =>
              if 0 < msgV.answer.length then
                run env fuel (.flattenC msgV.answer [] secure qname qtype (depth + 1))
              else run env fuel (.flattenC msgV.ns msgV.extra secure qname qtype (depth + 1))
          else
            if 0 < msg.answer.length then
              run env fuel (.flattenC msg.answer [] false qname qtype (depth + 1))
            else run env fuel (.flattenC msg.ns msg.extra false qname qtype (depth + 1))

/-- `queryInternal` (hip5), with its event trace. -/
def queryInternal (env : REnv) (name : DName) (qtype depth fuel : Nat) : DNSResult × List Ev :=
  let p := run env fuel (.query name qtype depth)
  (⟨p.1.1, p.1.2.1, p.1.2.2⟩, p.2)

/-- `query` (hip5): `queryInternal` at depth 0. -/
def query (env : REnv) (name : DName) (qtype fuel : Nat) : DNSResult × List Ev :=
  queryInternal env name qtype 0 fuel

/-- `attemptHIP5Resolution` (hip5). -/
def attemptHIP5Resolution (env : REnv) (tld qname : DName) (qtype depth fuel : Nat) :
    FRes × List Ev :=
  run env fuel (.attempt tld qname qtype depth)

/-- `flatten` (hip5). -/
def flatten (env : REnv) (rrs extra : List RR) (secure : Bool) (qname : DName)
    (qtype depth fuel : Nat) : FRes × List Ev :=
  run env fuel (.flattenC rrs extra secure qname qtype depth)

/-- `resolveCNAME` (hip5). -/
def resolveCNAME (env : REnv) (lst : List RR) (qname : DName) (qtype depth fuel : Nat) :
    FRes × List Ev :=
  run env fuel (.cnameLoop lst none qname qtype depth)

/-- `resolveNS` (hip5). -/
def resolveNS (env : REnv) (rrs ds extra : List RR) (qname : DName) (qtype depth fuel : Nat) :
    FRes × List Ev :=
  run env fuel (.nsChase rrs ds extra qname qtype depth)

/-! ## Derived predicates used in claim statements -/

/-- The canonical comparison with errors collapsed to 0 (the value
`compareWithErrors` yields on an error). -/
def cmpOrZero (a b : DName) : Int := (canonicalNameCompare a b).getD 0

/-- The downgrade condition of `shouldDowngradeKey` as a flat predicate over
the parsed key fields (the amended form of the specification's §4.1.10): the
algorithm is RSA/SHA-256 or RSA/SHA-512, the key decodes to at least 66
bytes, and either the exponent length field exceeds 4 bytes (downgraded
before any further well-formedness check), or the encoding is well formed
(nonzero exponent length ≤ 4 without a leading zero, modulus of 64–512
bytes without a leading zero) and the exponent value exceeds 2³¹ − 1 or the
modulus bit length is below the minimum. -/
def downgradeAmended (k : DNSKEYR) (minKeySize : Nat) : Bool :=
  (decide (k.algorithm = 8) || decide (k.algorithm = 10)) &&
    match k.publicKey with
    | none => false
    | some keybuf =>
      decide (66 ≤ keybuf.length) &&
        (decide (4 < rsaExpLen keybuf) ||
          (decide (1 ≤ rsaExpLen keybuf) && decide (rsaExpLen keybuf ≤ 4) &&
           decide (keybuf.getD (rsaKeyOff keybuf) 0 ≠ 0) &&
           decide (64 ≤ keybuf.length - rsaModOff keybuf) &&
           decide (keybuf.length - rsaModOff keybuf ≤ 512) &&
           decide (keybuf.getD (rsaModOff keybuf) 0 ≠ 0) &&
           (decide (2 ^ 31 - 1 < rsaExpVal keybuf) ||
            decide (bitLen (bytesToNat (rsaModBytes keybuf)) < minKeySize))))

/-! ## Concrete instances used by witnesses and counterexamples -/

/-- The zone `e.`. -/
def zoneE : DName := ⟨[[101]], true⟩

/-- The name `a.e.`. -/
def nameAE : DName := ⟨[[97], [101]], true⟩

/-- The name `b.e.`. -/
def nameBE : DName := ⟨[[98], [101]], true⟩

/-- The name `c.e.`. -/
def nameCE : DName := ⟨[[99], [101]], true⟩

/-- A well-formed RSA key buffer with a 5-byte exponent length field: a
downgrade candidate by the oversized-exponent rule. -/
def weakPK : List Nat := 5 :: 1 :: 1 :: 1 :: 1 :: 1 :: List.replicate 64 1

def weakKey : DNSKEYR := ⟨zoneE, 256, 3, 8, some weakPK⟩

/-- An RSA key buffer whose exponent value is exactly 2³¹ (4 bytes, no
leading zero) over a 64-byte modulus with high bit set. -/
def pkExp31 : List Nat := 4 :: 128 :: 0 :: 0 :: 0 :: 128 :: List.replicate 63 1

def keyExp31 : DNSKEYR := ⟨zoneE, 256, 3, 8, some pkExp31⟩

/-- A crypto oracle whose key tag is constantly 7 and whose SHA-256 digest
is constantly `[170]`. -/
def cryptoK7 : Crypto :=
  ⟨fun _ => 7, fun _ dt => if dt = 2 then some [170] else none, fun _ _ _ => true, fun _ _ => true⟩

/-- A DS for key tag 7, RSA/SHA-256, SHA-256 digest `[170]`, owned by `e.`. -/
def dsK7 : RR := ⟨zoneE, .ds 7 8 2 [170]⟩

def dsrK7 : DSR := ⟨zoneE, 7, 8, 2, [170]⟩

/-- A message whose answer holds the single weak DNSKEY. -/
def msgKeyAnswer : Msg := ⟨0, [⟨zoneE, .dnskey 256 3 8 (some weakPK)⟩], [], [], false⟩

/-- A message whose answer holds one RRSIG by the weak key and nothing else. -/
def msgSigOnly : Msg := ⟨0, [⟨zoneE, .rrsig 1 1 7 zoneE 0⟩], [], [], false⟩

/-- A NoData message: authority holds exactly one NSEC at `a.e.` with next
domain `b.e.` and a type bitmap listing only DS (43). -/
def msgNsecDS : Msg := ⟨0, [], [⟨nameAE, .nsec nameBE [43]⟩], [], false⟩

/-- DS records for the filterDS witness: two digests for tag 1 and one for
tag 2. -/
def dsT1Sha256 : RR := ⟨zoneE, .ds 1 8 2 [1]⟩

def dsT1Sha384 : RR := ⟨zoneE, .ds 1 8 4 [2]⟩

def dsT2Sha256 : RR := ⟨zoneE, .ds 2 8 2 [3]⟩

def rrsFilter : List RR := [dsT1Sha256, dsT1Sha384, dsT2Sha256]

def outFilter : List DSR := [⟨zoneE, 1, 8, 4, [2]⟩, ⟨zoneE, 2, 8, 2, [3]⟩]

/-- A non-DS record (an A record) owned by `b.e.` — not the zone `e.`. -/
def strayA : RR := ⟨nameBE, .a 9⟩

/-- A stub answer used by the stub-first witness. -/
def stubResA : DNSResult := ⟨[⟨nameAE, .a 5⟩], false, none⟩

/-- An environment whose stub always answers `stubResA`; every other oracle
fails, so any consultation of them is visible in the result. -/
def envStub : REnv where
  crypto := cryptoK7
  synced := true
  stub := fun _ _ => stubResA
  exchangeRoot := fun _ => .error .readFailed
  handlers := []
  exchange := fun _ _ _ => .error .readFailed
  lookupIP := fun _ => .error .readFailed
  time := 0

/-- The handler tag `_x`. -/
def tagUx : DName := ⟨[[95, 120]], false⟩

/-- The handler host `_x.`. -/
def hostUx : DName := ⟨[[95, 120]], true⟩

/-- The start name `a.t.` of the unbounded CNAME chain. -/
def startAT : DName := ⟨[[97], [116]], true⟩

/-- A handler producing an unbounded CNAME chain: every qname is aliased to
the same name with an extra `x` label prepended. -/
def chainHandler : DName → Nat → RR → Except RErr (List RR) :=
  fun q _ _ => .ok [⟨q, .cname ⟨[120] :: q.labels, true⟩⟩]

/-- An environment in which every TLD's root lookup yields the `_x`
extension NS and the `_x` handler produces the unbounded chain; the stub
always SERVFAILs so HIP-5 resolution is attempted at every hop. -/
def envChain : REnv where
  crypto := cryptoK7
  synced := true
  stub := fun _ _ => ⟨[], false, some .servFail⟩
  exchangeRoot := fun _ => .ok ⟨0, [], [⟨⟨[[116]], true⟩, .ns hostUx⟩], [], false⟩
  handlers := [(tagUx, chainHandler)]
  exchange := fun _ _ _ => .error .readFailed
  lookupIP := fun _ => .error .readFailed
  time := 0

/-- The depth bound of each resolver call: calls carry their own depth,
and the loop bodies may start one level deeper. -/
def Call.bound : Call → Nat
  | .query _ _ d => max d 11
  | .attempt _ _ _ d => max d 11
  | .flattenC _ _ _ _ _ d => max d 11
  | .cnameLoop _ _ _ _ d => max (d + 1) 11
  | .nsChase _ _ _ _ _ d => max (d + 1) 11

/-- The `(keyTag, algorithm)` key a DS record is filed under. -/
def dsKeyOf (d : DSR) : DSKey := ⟨d.keyTag, d.algorithm⟩

/-- Invariant of the `filterDS` walk: after consuming `processed`, the map
`m` has pairwise-distinct keys; each entry is a supported, zone-owned DS
from the processed input filed under its own key, with maximal supported
digest among the processed records of its key; and every processed
supported DS has an entry for its key. -/
def FDSInv (zone : DName) (processed : List RR) (m : List (DSKey × DSR)) : Prop :=
  (m.map Prod.fst).Nodup ∧
  (∀ p ∈ m, p.1 = dsKeyOf p.2 ∧ zone.equalFold p.2.name = true ∧
    isAlgorithmSupported p.2.algorithm = true ∧ isDigestSupported p.2.digestType = true ∧
    ∃ rr ∈ processed, dsOfRR rr = some p.2) ∧
  (∀ p ∈ m, ∀ rr ∈ processed, ∀ d, dsOfRR rr = some d → dsKeyOf d = p.1 →
    isDigestSupported d.digestType = true → d.digestType ≤ p.2.digestType) ∧
  (∀ rr ∈ processed, ∀ d, dsOfRR rr = some d → isAlgorithmSupported d.algorithm = true →
    isDigestSupported d.digestType = true → (alLookup m (dsKeyOf d)).isSome = true)

/-! ## Theorems -/

/-- Helper for C10: a record with a mismatched owner anywhere in the input
forces the `BadDS` error, whatever the accumulator. -/
theorem filterDSLoop_badDS (zone : DName) :
    ∀ (rrs : List RR) (m : List (DSKey × DSR)),
      (∃ rr ∈ rrs, zone.equalFold rr.name = false) →
      filterDSLoop zone rrs m = .error .badDS := by
  intro rrs
  induction rrs with
  | nil => intro m h; simp at h
  | cons rr rest ih =>
    intro m h
    by_cases ho : zone.equalFold rr.name
    · have hrest : ∃ r ∈ rest, zone.equalFold r.name = false := by
        rcases h with ⟨r, hr, hb⟩
        rcases List.mem_cons.mp hr with rfl | hr'
        · rw [ho] at hb; cases hb
        · exact ⟨r, hr', hb⟩
      simp only [filterDSLoop]
      rw [if_neg (by simp [ho])]
      rcases hds : dsOfRR rr with _ | ds <;> simp only [hds]
      · exact ih m hrest
      · by_cases hsupp : ¬ isAlgorithmSupported ds.algorithm = true ∨
            ¬ isDigestSupported ds.digestType = true
        · rw [if_pos hsupp]; exact ih m hrest
        · rw [if_neg hsupp]
          rcases halu : alLookup m ⟨ds.keyTag, ds.algorithm⟩ with _ | ds2 <;> simp only [halu]
          · exact ih _ hrest
          · by_cases hdt : ds.digestType ≤ ds2.digestType
            · rw [if_pos hdt]; exact ih m hrest
            · rw [if_neg hdt]; exact ih _ hrest
    · simp only [Bool.not_eq_true] at ho
      simp [filterDSLoop, ho]

/-- Claim C10 (confirmed): `filterDS` checks each input record's owner name
before its record type, so any record — DS or not — whose owner differs
case-insensitively from the fully-qualified zone makes `filterDS` return
`BadDS`, and `VerifyDNSKeys` propagates that error. -/
theorem c10_filterDS_owner_first (c : Crypto) (zone : DName) (msg : Msg) (dsSet : List RR)
    (t minKeySize : Nat) (hf : zone.fqdn = true)
    (hbad : ∃ rr ∈ dsSet, zone.equalFold rr.name = false) :
    filterDS zone dsSet = .error .badDS ∧
      VerifyDNSKeys c zone msg dsSet t minKeySize = .error .badDS := by
  have hloop := filterDSLoop_badDS zone dsSet [] hbad
  have h1 : filterDS zone dsSet = .error .badDS := by
    simp [filterDS, hf, hloop, Except.map]
  exact ⟨h1, by simp [VerifyDNSKeys, h1]⟩

/-- Witness for C10: a non-DS record (an A record) owned by `b.e.` in a DS
set for zone `e.`. -/
theorem c10_witness :
    filterDS zoneE [strayA] = .error .badDS ∧
      VerifyDNSKeys cryptoK7 zoneE msgKeyAnswer [strayA] 0 2048 = .error .badDS :=
  c10_filterDS_owner_first cryptoK7 zoneE msgKeyAnswer [strayA] 0 2048 (by decide)
    ⟨strayA, by decide, by decide⟩

/-- Helper for C1: when every matched key is a downgrade candidate the
strength filter keeps nothing. -/
theorem strongKeys_all_downgraded (c : Crypto) (minKeySize : Nat) :
    ∀ (m : List (Nat × DNSKEYR)),
      (∀ kv ∈ m, shouldDowngradeKey kv.2 minKeySize = true) →
      strongKeys c m minKeySize = [] := by
  have hgen : ∀ (m : List (Nat × DNSKEYR)) (acc : List (Nat × DNSKEYR)),
      (∀ kv ∈ m, shouldDowngradeKey kv.2 minKeySize = true) →
      m.foldl
        (fun acc kv =>
          if ¬ shouldDowngradeKey kv.2 minKeySize then alInsert acc (c.keyTag kv.2) kv.2 else acc)
        acc = acc := by
    intro m
    induction m with
    | nil => intro acc _; rfl
    | cons kv rest ih =>
      intro acc h
      have hk := h kv (List.mem_cons_self _ _)
      simp only [List.foldl]
      rw [if_neg (by simp [hk])]
      exact ih acc (fun x hx => h x (List.mem_cons_of_mem _ hx))
  intro m h
  exact hgen m [] h

/-- Claim C1 (amended): when the filtered DS set is non-empty, at least one
answer DNSKEY matches a surviving DS, and every matched key is discarded by
the strength filter, `VerifyDNSKeys` returns the empty trusted key set with
no error (the zone is treated as insecure) — not the `NoDNSKEY` error. -/
theorem c1_amended (c : Crypto) (zone : DName) (msg : Msg) (parentDSSet : List RR)
    (t minKeySize : Nat) (dsSet : List DSR)
    (hfil : filterDS zone parentDSSet = .ok dsSet) (hne : dsSet ≠ [])
    (hmatch : matchingKeys c msg dsSet ≠ [])
    (hdown : ∀ kv ∈ matchingKeys c msg dsSet, shouldDowngradeKey kv.2 minKeySize = true) :
    VerifyDNSKeys c zone msg parentDSSet t minKeySize = .ok [] := by
  have hstrong : strongKeys c (matchingKeys c msg dsSet) minKeySize = [] :=
    strongKeys_all_downgraded c minKeySize _ hdown
  simp only [VerifyDNSKeys, hfil]
  rw [if_neg (by simpa using hne)]
  rw [if_neg (by simpa using hmatch)]
  rw [hstrong]
  rfl

/-- Counterexample for C1: a DS set whose single matched key is weak (5-byte
exponent length).  The matching stage is non-empty and the matched key is
discarded by the strength filter, yet `VerifyDNSKeys` returns `.ok []` — no
`NoDNSKEY` error. -/
theorem c1_counterexample :
    filterDS zoneE [dsK7] = .ok [dsrK7] ∧
    matchingKeys cryptoK7 msgKeyAnswer [dsrK7] = [(7, weakKey)] ∧
    shouldDowngradeKey weakKey 2048 = true ∧
    VerifyDNSKeys cryptoK7 zoneE msgKeyAnswer [dsK7] 0 2048 = .ok [] := by
  refine ⟨by rfl, by decide, by decide, by rfl⟩

/-- Witness for C1 (amended). -/
theorem c1_witness : VerifyDNSKeys cryptoK7 zoneE msgKeyAnswer [dsK7] 0 2048 = .ok [] :=
  c1_amended cryptoK7 zoneE msgKeyAnswer [dsK7] 0 2048 [dsrK7]
    (by rfl) (by decide) (by decide) (by decide)

/-- Claim C5 (confirmed): if the signature walk verifies no rrset in the
Answer or Authority sections but saw a signature by a downgradable key,
`verifySignatures` returns the message with all three sections exactly as
they were, Secure = false, and no error. -/
theorem c5_downgrade_restores (c : Crypto) (zone qname : DName) (msg : Msg)
    (keys : List (Nat × DNSKEYR)) (t minKeySize : Nat)
    (ha : (walkAll c zone qname msg keys t minKeySize).answer = [])
    (hn : (walkAll c zone qname msg keys t minKeySize).ns = [])
    (hd : (walkAll c zone qname msg keys t minKeySize).downgrade = true) :
    verifySignatures c zone qname msg keys t minKeySize = (msg, false, none) := by
  simp only [verifySignatures, ha, hn, hd]
  simp

/-- Witness for C5: one RRSIG by the weak key; nothing verifies, the
downgrade flag is set, the message is returned untouched. -/
theorem c5_witness :
    verifySignatures cryptoK7 zoneE zoneE msgSigOnly [(7, weakKey)] 0 2048 =
      (msgSigOnly, false, none) :=
  c5_downgrade_restores cryptoK7 zoneE zoneE msgSigOnly [(7, weakKey)] 0 2048
    (by decide) (by decide) (by decide)

/-- Helper for C2: with neither qtype nor CNAME in the bitmap, the bitmap
scan succeeds and reports DS/NS presence. -/
theorem bitmapScan_no_hit (qtype : Nat) :
    ∀ (bm : List Nat) (hasDS hasDel : Bool), qtype ∉ bm → (5 : Nat) ∉ bm →
      bitmapScan qtype bm hasDS hasDel = .ok (hasDS || bm.contains 43, hasDel || bm.contains 2) := by
  intro bm
  induction bm with
  | nil => intro hasDS hasDel _ _; simp [bitmapScan]
  | cons ty rest ih =>
    intro hasDS hasDel hq h5
    have hq' : qtype ∉ rest := fun h => hq (List.mem_cons_of_mem _ h)
    have h5' : (5 : Nat) ∉ rest := fun h => h5 (List.mem_cons_of_mem _ h)
    have hty1 : ty ≠ qtype := fun h => hq (h ▸ List.mem_cons_self _ _)
    have hty5 : ty ≠ 5 := fun h => h5 (h ▸ List.mem_cons_self _ _)
    simp only [bitmapScan]
    rw [if_neg hty1, if_neg hty5]
    by_cases h43 : ty = 43
    · subst h43
      rw [if_pos rfl, ih true hasDel hq' h5']
      simp [List.contains_cons]
    · rw [if_neg h43]
      by_cases h2 : ty = 2
      · subst h2
        rw [if_pos rfl, ih hasDS true hq' h5']
        simp [List.contains_cons, h43]
      · rw [if_neg h2, ih hasDS hasDel hq' h5']
        simp [List.contains_cons, Ne.symm h43, Ne.symm h2]

/-- Helper for C2: once the NSEC bitmap listed DS, the delegation check
fails exactly when some NS record is present. -/
theorem checkDelegation_hasDS (zone nsecName : DName) (hasDel : Bool) :
    ∀ l : List RR, checkDelegation zone nsecName true hasDel l =
      (if ∃ r ∈ l, r.rrtype = 2 then some .badInsecureDelegation else none) := by
  intro l
  induction l with
  | nil => simp [checkDelegation]
  | cons rr rest ih =>
    by_cases h2 : rr.rrtype = 2
    · simp [checkDelegation, h2]
    · simp [checkDelegation, h2, ih]

/-- Claim C2 (amended): in NoData verification, when the leading authority
record is an NSEC whose owner equals qname, whose next domain is in
bailiwick, and whose bitmap lists DS but neither qtype nor CNAME,
`verifyNoData` fails if and only if the Authority section also contains an
NS record; with no NS record present it succeeds. -/
theorem c2_amended (msg : Msg) (zone qname own next : DName) (bitmap : List Nat)
    (qtype : Nat) (rest : List RR)
    (hns : msg.ns = ⟨own, .nsec next bitmap⟩ :: rest)
    (howner : own.equalFold qname = true)
    (hbail : isSubDomain zone next = true)
    (hds : (43 : Nat) ∈ bitmap) (hq : qtype ∉ bitmap) (hc : (5 : Nat) ∉ bitmap) :
    verifyNoData msg zone qname qtype =
      (if ∃ r ∈ rest, r.rrtype = 2
       then (false, some .badInsecureDelegation) else (true, none)) := by
  have hcontains : bitmap.contains 43 = true := List.elem_eq_true_of_mem hds
  have hscan := bitmapScan_no_hit qtype bitmap false false hq hc
  rw [hcontains] at hscan
  simp only [Bool.false_or] at hscan
  have hcd2 : checkDelegation zone own true (bitmap.contains 2)
      ((⟨own, .nsec next bitmap⟩ : RR) :: rest) =
      (if ∃ r ∈ rest, r.rrtype = 2 then some RErr.badInsecureDelegation else none) := by
    rw [checkDelegation_hasDS]
    simp [RR.rrtype, RData.rrtype]
  by_cases hex : ∃ r ∈ rest, r.rrtype = 2
  · rw [if_pos hex]
    simp only [verifyNoData, hns, List.length_cons]
    rw [if_neg (by simp)]
    simp only [verifyNoDataLoop, RR.rrtype, RData.rrtype]
    norm_num
    rw [if_neg (by simp [howner])]
    rw [if_neg (by simp [hbail])]
    simp only [hscan, hns]
    rw [hcd2, if_pos hex]
  · rw [if_neg hex]
    simp only [verifyNoData, hns, List.length_cons]
    rw [if_neg (by simp)]
    simp only [verifyNoDataLoop, RR.rrtype, RData.rrtype]
    norm_num
    rw [if_neg (by simp [howner])]
    rw [if_neg (by simp [hbail])]
    simp only [hscan, hns]
    rw [hcd2, if_neg hex]

/-- Counterexample for C2: an NSEC at qname listing DS in its bitmap with no
NS record anywhere in the Authority section — `verifyNoData` succeeds, so
"fails regardless of whether any NS record is present" is false. -/
theorem c2_counterexample :
    msgNsecDS.ns = [⟨nameAE, .nsec nameBE [43]⟩] ∧
    nameAE.equalFold nameAE = true ∧ ((43 : Nat) ∈ [(43 : Nat)]) ∧
    verifyNoData msgNsecDS zoneE nameAE 1 = (true, none) :=
  ⟨rfl, by decide, by decide, by decide⟩

/-- Witness for C2 (amended), at the no-NS instance. -/
theorem c2_witness : verifyNoData msgNsecDS zoneE nameAE 1 = (true, none) := by
  have h := c2_amended msgNsecDS zoneE nameAE nameAE nameBE [43] 1 [] rfl (by decide)
    (by decide) (by decide) (by decide) (by decide)
  simpa using h

/-- Claim C4 (amended): `shouldDowngradeKey` returns true iff the algorithm
is RSA/SHA-256 or RSA/SHA-512, the key decodes to at least 66 bytes, and
either the exponent length field exceeds 4 bytes (this downgrade fires
before the malformation checks), or the encoding is well formed and the
exponent value exceeds 2³¹ − 1 (not 2³² − 1) or the modulus bit length is
below the minimum. -/
theorem c4_amended (k : DNSKEYR) (minKeySize : Nat) :
    shouldDowngradeKey k minKeySize = downgradeAmended k minKeySize := by
  unfold shouldDowngradeKey downgradeAmended
  by_cases halg : k.algorithm ≠ 10 ∧ k.algorithm ≠ 8
  · rw [if_pos halg]
    simp [halg.1, halg.2]
  · rw [if_neg halg]
    have halg8or10 : k.algorithm = 10 ∨ k.algorithm = 8 := by
      by_contra hcon
      push_neg at hcon
      exact halg ⟨hcon.1, hcon.2⟩
    have hb : (decide (k.algorithm = 8) || decide (k.algorithm = 10)) = true := by
      rcases halg8or10 with h | h <;> simp [h]
    rw [hb, Bool.true_and]
    cases hpk : k.publicKey with
    | none => rfl
    | some keybuf =>
      dsimp only
      by_cases hlen : keybuf.length < 1 + 1 + 64
      · rw [if_pos hlen]
        have h66 : decide (66 ≤ keybuf.length) = false := by
          simp only [decide_eq_false_iff_not]
          omega
        rw [h66, Bool.false_and]
      · rw [if_neg hlen]
        have h66 : decide (66 ≤ keybuf.length) = true := by
          simp only [decide_eq_true_eq]
          omega
        rw [h66, Bool.true_and]
        by_cases hexp : 4 < rsaExpLen keybuf
        · rw [if_pos hexp]
          simp [hexp]
        · rw [if_neg hexp]
          have hd4 : decide (4 < rsaExpLen keybuf) = false := by simp [hexp]
          rw [hd4, Bool.false_or]
          by_cases hzero : rsaExpLen keybuf = 0 ∨ keybuf.getD (rsaKeyOff keybuf) 0 = 0
          · rw [if_pos hzero]
            rcases hzero with h0 | hlead
            · have : decide (1 ≤ rsaExpLen keybuf) = false := by simp [h0]
              rw [this, Bool.false_and, Bool.false_and, Bool.false_and, Bool.false_and,
                Bool.false_and, Bool.false_and]
            · have : decide (keybuf.getD (rsaKeyOff keybuf) 0 ≠ 0) = false := by
                simp only [decide_eq_false_iff_not, ne_eq, not_not]
                exact hlead
              rw [this, Bool.and_false, Bool.false_and, Bool.false_and, Bool.false_and,
                Bool.false_and]
          · rw [if_neg hzero]
            push_neg at hzero
            obtain ⟨h0, hlead⟩ := hzero
            have h1e : decide (1 ≤ rsaExpLen keybuf) = true := by
              simp only [decide_eq_true_eq]; omega
            have h4e : decide (rsaExpLen keybuf ≤ 4) = true := by
              simp only [decide_eq_true_eq]; omega
            have hle : decide (keybuf.getD (rsaKeyOff keybuf) 0 ≠ 0) = true := by
              simp only [decide_eq_true_eq, ne_eq]
              exact hlead
            rw [h1e, h4e, hle, Bool.true_and, Bool.true_and, Bool.true_and]
            by_cases hmod : keybuf.length - (rsaKeyOff keybuf + rsaExpLen keybuf) < 64 ∨
                512 < keybuf.length - (rsaKeyOff keybuf + rsaExpLen keybuf) ∨
                keybuf.getD (rsaKeyOff keybuf + rsaExpLen keybuf) 0 = 0
            · rw [if_pos hmod]
              rcases hmod with hm | hm | hm
              · have : decide (64 ≤ keybuf.length - rsaModOff keybuf) = false := by
                  simp only [decide_eq_false_iff_not, rsaModOff]; omega
                rw [this, Bool.false_and, Bool.false_and, Bool.false_and]
              · have : decide (keybuf.length - rsaModOff keybuf ≤ 512) = false := by
                  simp only [decide_eq_false_iff_not, rsaModOff]; omega
                rw [this, Bool.and_false, Bool.false_and, Bool.false_and]
              · have : decide (keybuf.getD (rsaModOff keybuf) 0 ≠ 0) = false := by
                  simp only [decide_eq_false_iff_not, rsaModOff, ne_eq, not_not]
                  exact hm
                rw [this]
                simp
            · rw [if_neg hmod]
              push_neg at hmod
              obtain ⟨hm1, hm2, hm3⟩ := hmod
              have a1 : decide (64 ≤ keybuf.length - rsaModOff keybuf) = true := by
                simp only [decide_eq_true_eq, rsaModOff]; omega
              have a2 : decide (keybuf.length - rsaModOff keybuf ≤ 512) = true := by
                simp only [decide_eq_true_eq, rsaModOff]; omega
              have a3 : decide (keybuf.getD (rsaModOff keybuf) 0 ≠ 0) = true := by
                simp only [decide_eq_true_eq, rsaModOff, ne_eq]
                exact hm3
              rw [a1, a2, a3, Bool.true_and, Bool.true_and, Bool.true_and]
              by_cases hexpo : 2 ^ 31 - 1 < rsaExpVal keybuf
              · rw [if_pos hexpo]
                simp only [Bool.true_eq, Bool.or_eq_true, decide_eq_true_eq]
                left
                omega
              · rw [if_neg hexpo]
                have : decide (2 ^ 31 - 1 < rsaExpVal keybuf) = false := by
                  simp only [decide_eq_false_iff_not]
                  omega
                rw [this, Bool.false_or]
                simp [rsaModBytes, rsaModOff]

set_option maxRecDepth 8000 in
/-- Counterexample for C4: a well-formed key with exponent value exactly
2³¹ — within 32 bits — and a 512-bit modulus far above the minimum of 1,
which the claim therefore exempts from downgrade; the code downgrades it
(the cutoff is 2³¹ − 1, not 32 bits). -/
theorem c4_counterexample :
    shouldDowngradeKey keyExp31 1 = true ∧
    rsaExpVal pkExp31 = 2 ^ 31 ∧ rsaExpVal pkExp31 < 2 ^ 32 ∧
    1 ≤ bitLen (bytesToNat (rsaModBytes pkExp31)) :=
  ⟨by decide, by decide, by decide, by decide⟩

/-- Witness for C4 (amended) at the concrete key. -/
theorem c4_witness : shouldDowngradeKey keyExp31 1 = downgradeAmended keyExp31 1 :=
  c4_amended keyExp31 1

/-- `bytes.Compare` is reflexive. -/
theorem bytesCompare_refl : ∀ x : List Nat, bytesCompare x x = 0 := by
  intro x
  induction x with
  | nil => rfl
  | cons a as ih => simp [bytesCompare, ih]

/-- `bytes.Compare` is antisymmetric. -/
theorem bytesCompare_antisym : ∀ x y : List Nat, bytesCompare y x = -bytesCompare x y := by
  intro x
  induction x with
  | nil => intro y; cases y <;> simp [bytesCompare]
  | cons a as ih =>
    intro y
    cases y with
    | nil => simp [bytesCompare]
    | cons b bs =>
      simp only [bytesCompare]
      rcases Nat.lt_trichotomy a b with h | h | h
      · simp [h, Nat.lt_asymm h]
      · subst h
        simp only [Nat.lt_irrefl, if_false]
        exact ih bs
      · simp [h, Nat.lt_asymm h]

/-- `bytes.Compare` returns 0 only on equal byte lists. -/
theorem bytesCompare_eq_zero : ∀ x y : List Nat, bytesCompare x y = 0 → x = y := by
  intro x
  induction x with
  | nil => intro y h; cases y with
    | nil => rfl
    | cons b bs => simp [bytesCompare] at h
  | cons a as ih =>
    intro y h
    cases y with
    | nil => simp [bytesCompare] at h
    | cons b bs =>
      simp only [bytesCompare] at h
      by_cases hab : a < b
      · rw [if_pos hab] at h; cases h
      · rw [if_neg hab] at h
        by_cases hba : b < a
        · rw [if_pos hba] at h; cases h
        · rw [if_neg hba] at h
          have : a = b := by omega
          subst this
          rw [ih bs h]

/-- `bytes.Compare` is transitive in its strict negative result. -/
theorem bytesCompare_trans_neg :
    ∀ x y z : List Nat, bytesCompare x y = -1 → bytesCompare y z = -1 → bytesCompare x z = -1 := by
  intro x
  induction x with
  | nil =>
    intro y z hxy hyz
    cases y with
    | nil => cases hxy
    | cons b bs =>
      cases z with
      | nil => simp [bytesCompare] at hyz
      | cons c cs => rfl
  | cons a as ih =>
    intro y z hxy hyz
    cases y with
    | nil => simp [bytesCompare] at hxy
    | cons b bs =>
      cases z with
      | nil => simp [bytesCompare] at hyz
      | cons c cs =>
        simp only [bytesCompare] at hxy hyz ⊢
        by_cases hab : a < b
        · by_cases hbc : b < c
          · rw [if_pos (by omega)]
          · rw [if_neg hbc] at hyz
            by_cases hcb : c < b
            · rw [if_pos hcb] at hyz; cases hyz
            · have : b = c := by omega
              subst this
              rw [if_pos hab]
        · rw [if_neg hab] at hxy
          by_cases hba : b < a
          · rw [if_pos hba] at hxy; cases hxy
          · have hab' : a = b := by omega
            subst hab'
            rw [if_neg hab] at hxy
            by_cases hac : a < c
            · rw [if_pos hac]
            · rw [if_neg hac] at hyz ⊢
              by_cases hca : c < a
              · rw [if_pos hca] at hyz; cases hyz
              · rw [if_neg hca] at hyz ⊢
                exact ih bs cs hxy hyz

/-- Packing succeeds on labels of 1 to 63 bytes. -/
theorem packLabel_ok {l : Label} (h1 : 1 ≤ l.length) (h2 : l.length ≤ 63) :
    packLabel l = some l := by
  unfold packLabel
  rw [if_neg (by omega)]

/-- The label walk is antisymmetric. -/
theorem cmpLabelsRev_antisym :
    ∀ (xs ys : List Label) (r : Int),
      cmpLabelsRev xs ys = some r → cmpLabelsRev ys xs = some (-r) := by
  intro xs
  induction xs with
  | nil =>
    intro ys r h
    cases ys with
    | nil => simp [cmpLabelsRev] at h ⊢; omega
    | cons b bs => simp [cmpLabelsRev] at h ⊢; omega
  | cons a as ih =>
    intro ys r h
    cases ys with
    | nil => simp [cmpLabelsRev] at h ⊢; omega
    | cons b bs =>
      simp only [cmpLabelsRev] at h ⊢
      rcases hpa : packLabel a with _ | pa
      · simp [hpa] at h
      · rw [hpa] at h
        rcases hpb : packLabel b with _ | pb
        · simp [hpb] at h
        · rw [hpb] at h
          dsimp only at h ⊢
          rw [bytesCompare_antisym (lowerLabel pa) (lowerLabel pb)]
          by_cases h0 : bytesCompare (lowerLabel pa) (lowerLabel pb) = 0
          · rw [h0] at h ⊢
            rw [if_neg (by omega)] at h
            rw [if_neg (by norm_num)]
            exact ih bs r h
          · rw [if_pos h0] at h
            cases h
            rw [if_pos (by omega)]

/-- The label walk is reflexive on in-bounds labels. -/
theorem cmpLabelsRev_refl :
    ∀ xs : List Label, (∀ l ∈ xs, 1 ≤ l.length ∧ l.length ≤ 63) →
      cmpLabelsRev xs xs = some 0 := by
  intro xs
  induction xs with
  | nil => intro _; rfl
  | cons a as ih =>
    intro h
    have ha := h a (List.mem_cons_self _ _)
    simp only [cmpLabelsRev, packLabel_ok ha.1 ha.2]
    rw [bytesCompare_refl, if_neg (by norm_num)]
    exact ih (fun l hl => h l (List.mem_cons_of_mem _ hl))

/-- The label walk is transitive in its strict negative result. -/
theorem cmpLabelsRev_trans :
    ∀ xs ys zs : List Label, cmpLabelsRev xs ys = some (-1) →
      cmpLabelsRev ys zs = some (-1) → cmpLabelsRev xs zs = some (-1) := by
  intro xs
  induction xs with
  | nil =>
    intro ys zs h1 h2
    cases ys with
    | nil =>
      cases zs with
      | nil => exact h2
      | cons c cs => rfl
    | cons b bs =>
      cases zs with
      | nil => simp [cmpLabelsRev] at h2
      | cons c cs => rfl
  | cons a as ih =>
    intro ys zs h1 h2
    cases ys with
    | nil => simp [cmpLabelsRev] at h1
    | cons b bs =>
      cases zs with
      | nil => simp [cmpLabelsRev] at h2
      | cons c cs =>
        simp only [cmpLabelsRev] at h1 h2 ⊢
        rcases hpa : packLabel a with _ | pa
        · simp [hpa] at h1
        rw [hpa] at h1
        rcases hpb : packLabel b with _ | pb
        · simp [hpb] at h1
        rw [hpb] at h1 h2
        rcases hpc : packLabel c with _ | pc
        · simp [hpc] at h2
        rw [hpc] at h2
        dsimp only at h1 h2 ⊢
        by_cases hab0 : bytesCompare (lowerLabel pa) (lowerLabel pb) = 0
        · have hablists : lowerLabel pa = lowerLabel pb := bytesCompare_eq_zero _ _ hab0
          rw [hab0, if_neg (by norm_num)] at h1
          by_cases hbc0 : bytesCompare (lowerLabel pb) (lowerLabel pc) = 0
          · rw [hbc0, if_neg (by norm_num)] at h2
            rw [hablists, hbc0, if_neg (by norm_num)]
            exact ih bs cs h1 h2
          · rw [if_pos hbc0] at h2
            have hv2 := Option.some.inj h2
            rw [hablists, hv2, if_pos (by norm_num)]
        · rw [if_pos hab0] at h1
          have hv1 := Option.some.inj h1
          by_cases hbc0 : bytesCompare (lowerLabel pb) (lowerLabel pc) = 0
          · have hbclists : lowerLabel pb = lowerLabel pc := bytesCompare_eq_zero _ _ hbc0
            rw [← hbclists, hv1, if_pos (by norm_num)]
          · rw [if_pos hbc0] at h2
            have hv2 := Option.some.inj h2
            have htr := bytesCompare_trans_neg (lowerLabel pa) (lowerLabel pb) (lowerLabel pc)
              hv1 hv2
            rw [htr, if_pos (by norm_num)]

/-- Full qualification does not change validity (labels are unchanged). -/
theorem isDomainName_toFqdn (n : DName) : isDomainName n.toFqdn = isDomainName n := rfl

/-- A valid domain name has labels of 1 to 63 bytes. -/
theorem labelBounds_of_isDomainName {n : DName} (h : isDomainName n = true) :
    ∀ l ∈ n.labels, 1 ≤ l.length ∧ l.length ≤ 63 := by
  intro l hl
  simp only [isDomainName, Bool.and_eq_true, List.all_eq_true] at h
  have h2 := h.1 l hl
  simp only [Bool.and_eq_true, decide_eq_true_eq] at h2
  exact h2

/-- The label walk never errors on in-bounds labels. -/
theorem cmpLabelsRev_some :
    ∀ xs ys : List Label, (∀ l ∈ xs, 1 ≤ l.length ∧ l.length ≤ 63) →
      (∀ l ∈ ys, 1 ≤ l.length ∧ l.length ≤ 63) → ∃ r, cmpLabelsRev xs ys = some r := by
  intro xs
  induction xs with
  | nil =>
    intro ys _ _
    cases ys with
    | nil => exact ⟨0, rfl⟩
    | cons b bs => exact ⟨-1, rfl⟩
  | cons a as ih =>
    intro ys hx hy
    cases ys with
    | nil => exact ⟨1, rfl⟩
    | cons b bs =>
      have ha := hx a (List.mem_cons_self _ _)
      have hb := hy b (List.mem_cons_self _ _)
      simp only [cmpLabelsRev, packLabel_ok ha.1 ha.2, packLabel_ok hb.1 hb.2]
      by_cases h0 : bytesCompare (lowerLabel a) (lowerLabel b) = 0
      · rw [h0, if_neg (by norm_num)]
        exact ih bs (fun l hl => hx l (List.mem_cons_of_mem _ hl))
          (fun l hl => hy l (List.mem_cons_of_mem _ hl))
      · rw [if_pos h0]
        exact ⟨_, rfl⟩

/-- `canonicalNameCompare` succeeds on valid names. -/
theorem cnc_some {a b : DName} (ha : isDomainName a = true) (hb : isDomainName b = true) :
    ∃ r, canonicalNameCompare a b = some r := by
  unfold canonicalNameCompare
  rw [if_neg (by simp [isDomainName_toFqdn, ha]), if_neg (by simp [isDomainName_toFqdn, hb])]
  exact cmpLabelsRev_some _ _
    (fun l hl => labelBounds_of_isDomainName ha l (List.mem_reverse.mp hl))
    (fun l hl => labelBounds_of_isDomainName hb l (List.mem_reverse.mp hl))

/-- `canonicalNameCompare` succeeds only on valid names. -/
theorem cnc_valid {a b : DName} {r : Int} (h : canonicalNameCompare a b = some r) :
    isDomainName a = true ∧ isDomainName b = true := by
  unfold canonicalNameCompare at h
  by_cases h1 : isDomainName a.toFqdn
  · by_cases h2 : isDomainName b.toFqdn
    · rw [isDomainName_toFqdn] at h1 h2
      exact ⟨h1, h2⟩
    · rw [if_neg (by simp [h1]), if_pos (by simp [h2])] at h
      cases h
  · rw [if_pos (by simp [h1])] at h
    cases h

/-- Claim C9 (confirmed): `canonicalNameCompare` is antisymmetric
(`cmp a b = r` implies `cmp b a = -r`), reflexive on valid domain names
(`cmp a a = 0`), and the induced strict order is transitive. -/
theorem c9_canonical_order :
    (∀ (a b : DName) (r : Int), canonicalNameCompare a b = some r →
        canonicalNameCompare b a = some (-r)) ∧
    (∀ a : DName, isDomainName a = true → canonicalNameCompare a a = some 0) ∧
    (∀ a b c : DName, canonicalNameCompare a b = some (-1) →
        canonicalNameCompare b c = some (-1) → canonicalNameCompare a c = some (-1)) := by
  refine ⟨?_, ?_, ?_⟩
  · intro a b r h
    obtain ⟨ha, hb⟩ := cnc_valid h
    unfold canonicalNameCompare at h ⊢
    rw [if_neg (by simp [isDomainName_toFqdn, ha]),
      if_neg (by simp [isDomainName_toFqdn, hb])] at h
    rw [if_neg (by simp [isDomainName_toFqdn, hb]),
      if_neg (by simp [isDomainName_toFqdn, ha])]
    exact cmpLabelsRev_antisym _ _ r h
  · intro a ha
    unfold canonicalNameCompare
    rw [if_neg (by simp [isDomainName_toFqdn, ha]),
      if_neg (by simp [isDomainName_toFqdn, ha])]
    exact cmpLabelsRev_refl _
      (fun l hl => labelBounds_of_isDomainName ha l (List.mem_reverse.mp hl))
  · intro a b c h1 h2
    obtain ⟨ha, hb⟩ := cnc_valid h1
    obtain ⟨_, hc⟩ := cnc_valid h2
    unfold canonicalNameCompare at h1 h2 ⊢
    rw [if_neg (by simp [isDomainName_toFqdn, ha]),
      if_neg (by simp [isDomainName_toFqdn, hb])] at h1
    rw [if_neg (by simp [isDomainName_toFqdn, hb]),
      if_neg (by simp [isDomainName_toFqdn, hc])] at h2
    rw [if_neg (by simp [isDomainName_toFqdn, ha]),
      if_neg (by simp [isDomainName_toFqdn, hc])]
    exact cmpLabelsRev_trans _ _ _ h1 h2

/-- Witness for C9 at concrete names `a.e.`, `b.e.`, `c.e.`. -/
theorem c9_witness :
    canonicalNameCompare nameBE nameAE = some 1 ∧
    canonicalNameCompare nameAE nameAE = some 0 ∧
    canonicalNameCompare nameAE nameCE = some (-1) := by
  refine ⟨?_, ?_, ?_⟩
  · have h := c9_canonical_order.1 nameAE nameBE (-1) (by decide)
    simpa using h
  · exact c9_canonical_order.2.1 nameAE (by decide)
  · exact c9_canonical_order.2.2 nameAE nameBE nameCE (by decide) (by decide)

/-- Claim C7 (confirmed): `covers owner next qname` is true iff all three
names are valid, `qname > owner` in canonical order and either
`owner ≥ next` (wrap-around NSEC, upper bound treated as infinity) or
`qname < next`; any name-comparison error (an invalid name) yields false.
In particular it is false whenever `qname ≤ owner`, and false whenever
`qname ≥ next` while `owner < next`. -/
theorem c7_covers (owner next qname : DName) :
    covers owner next qname = true ↔
      (isDomainName owner = true ∧ isDomainName next = true ∧ isDomainName qname = true ∧
       0 < cmpOrZero qname owner ∧ (0 ≤ cmpOrZero owner next ∨ cmpOrZero qname next < 0)) := by
  rcases h1 : canonicalNameCompare qname owner with _ | r1
  · have hcov : covers owner next qname = false := by
      unfold covers compareWithErrors
      rw [h1]
      dsimp only
      rw [if_pos (by norm_num)]
    rw [hcov]
    simp only [Bool.false_eq_true, false_iff]
    rintro ⟨ho, hn, hq, hpos, hrange⟩
    obtain ⟨r, hr⟩ := cnc_some hq ho
    rw [h1] at hr
    cases hr
  · obtain ⟨hqv, hov⟩ := cnc_valid h1
    by_cases hr1 : r1 ≤ 0
    · have hcov : covers owner next qname = false := by
        unfold covers compareWithErrors
        rw [h1]
        dsimp only
        rw [if_pos hr1]
      rw [hcov]
      simp only [Bool.false_eq_true, false_iff]
      rintro ⟨_, _, _, hpos, _⟩
      unfold cmpOrZero at hpos
      rw [h1] at hpos
      simp only [Option.getD_some] at hpos
      omega
    · rcases h2 : canonicalNameCompare owner next with _ | r2
      · have hnv : isDomainName next = false := by
          by_contra hcon
          rw [Bool.not_eq_false] at hcon
          obtain ⟨r, hr⟩ := cnc_some hov hcon
          rw [h2] at hr
          cases hr
        have hcov : covers owner next qname = false := by
          unfold covers compareWithErrors
          rw [h1]
          simp [hr1, h2]
        rw [hcov]
        simp only [Bool.false_eq_true, false_iff]
        rintro ⟨_, hnext, _, _, _⟩
        rw [hnv] at hnext
        cases hnext
      · obtain ⟨_, hnv⟩ := cnc_valid h2
        by_cases hr2 : 0 ≤ r2
        · have hcov : covers owner next qname = true := by
            unfold covers compareWithErrors
            rw [h1]
            dsimp only
            rw [if_neg hr1, h2]
            dsimp only
            rw [if_pos hr2]
            dsimp only
            rw [if_neg (by norm_num), if_neg (by norm_num)]
          rw [hcov]
          simp only [true_iff]
          refine ⟨hov, hnv, hqv, ?_, Or.inl ?_⟩
          · unfold cmpOrZero
            rw [h1]
            simp only [Option.getD_some]
            omega
          · unfold cmpOrZero
            rw [h2]
            simpa using hr2
        · obtain ⟨r3, h3⟩ := cnc_some hqv hnv
          have hcov : covers owner next qname = decide (r3 < 0) := by
            unfold covers compareWithErrors
            rw [h1]
            by_cases hr3 : r3 < 0
            · simp [hr1, h2, hr2, h3, hr3]
            · simp [hr1, h2, hr2, h3, hr3]
          rw [hcov]
          constructor
          · intro hd
            have hr3 : r3 < 0 := by simpa using hd
            refine ⟨hov, hnv, hqv, ?_, Or.inr ?_⟩
            · unfold cmpOrZero
              rw [h1]
              simp only [Option.getD_some]
              omega
            · unfold cmpOrZero
              rw [h3]
              simpa using hr3
          · rintro ⟨_, _, _, _, hor⟩
            rcases hor with hle | hlt
            · exfalso
              unfold cmpOrZero at hle
              rw [h2] at hle
              simp only [Option.getD_some] at hle
              omega
            · unfold cmpOrZero at hlt
              rw [h3] at hlt
              simp only [Option.getD_some] at hlt
              simpa using hlt

/-- Witness for C7, instantiated at `a.e.`, `c.e.`, `b.e.`. -/
theorem c7_witness :
    covers nameAE nameCE nameBE = true ↔
      (isDomainName nameAE = true ∧ isDomainName nameCE = true ∧ isDomainName nameBE = true ∧
       0 < cmpOrZero nameBE nameAE ∧
       (0 ≤ cmpOrZero nameAE nameCE ∨ cmpOrZero nameBE nameCE < 0)) :=
  c7_covers nameAE nameCE nameBE

/-- Claim C8 (confirmed): for a synced resolver and a query whose TLD is
not the reserved tag `eth`, the stub is consulted first, and whenever the
stub returns success or any error other than SERVFAIL that stub result is
returned as-is; the whole event trace is the query entry followed by the
stub consultation only — in particular it contains no `.root` event, so the
trusted-root endpoint is never contacted during the query. -/
theorem c8_stub_first (env : REnv) (name : DName) (qtype depth fuel : Nat)
    (hsync : env.synced = true)
    (htld : LastNLabels name.canonical 1 ≠ ethTag)
    (hstub : (env.stub name.canonical qtype).err = none ∨
      errIsServFail (env.stub name.canonical qtype).err = false) :
    queryInternal env name qtype depth (fuel + 1) =
      (env.stub name.canonical qtype,
       [.query name qtype depth, .stub name.canonical qtype]) := by
  unfold queryInternal run
  dsimp only
  rw [if_neg (by simp [hsync])]
  rw [if_pos htld]
  rw [if_pos (show (env.stub name.canonical qtype).err = none ∨
      ¬ errIsServFail (env.stub name.canonical qtype).err = true by
    rcases hstub with h | h
    · exact Or.inl h
    · exact Or.inr (by simp [h]))]
  rfl

/-- Witness for C8: the always-answering stub environment. -/
theorem c8_witness :
    queryInternal envStub nameAE 1 0 5 =
      (stubResA, [.query nameAE 1 0, .stub nameAE.canonical 1]) :=
  c8_stub_first envStub nameAE 1 0 4 (by decide) (by decide) (by decide)

/-- Handler events carry the depth of the enclosing attempt. -/
theorem runHandlers_dep (env : REnv) (qname : DName) (qtype depth : Nat) :
    ∀ (l : List RR) (le : Option RErr) (ev : Ev),
      ev ∈ (runHandlers env qname qtype depth l le).2 → ev.dep = depth := by
  intro l
  induction l with
  | nil => intro le ev h; simp [runHandlers] at h
  | cons rr rest ih =>
    intro le ev h
    simp only [runHandlers] at h
    rcases hr : rr.rdata with _ | _ | _ | host | _ | _ | _ | _ | _ | _ <;> rw [hr] at h
    case ns =>
      dsimp only at h
      rcases halk : alLookup env.handlers (LastNLabels host 1) with _ | hf <;> rw [halk] at h
      · exact ih le ev h
      · dsimp only at h
        rcases hrun : hf qname qtype rr with e | res <;> rw [hrun] at h
        · dsimp only at h
          rcases List.mem_cons.mp h with rfl | h2
          · rfl
          · exact ih (some e) ev h2
        · dsimp only at h
          rcases List.mem_singleton.mp h with rfl
          rfl
    all_goals exact ih le ev h

/-- Root-exchange events are depth-less. -/
theorem lookupExtensions_dep (env : REnv) (tld : DName) :
    ∀ ev ∈ (lookupExtensions env tld).2, ev.dep = 0 := by
  intro ev h
  unfold lookupExtensions at h
  by_cases heth : tld.toFqdn = ethFqdn
  · rw [if_pos heth] at h
    simp at h
  · rw [if_neg heth] at h
    rcases hx : env.exchangeRoot tld.toFqdn with e | r <;> rw [hx] at h
    · simp at h
      rw [h]
      rfl
    · dsimp only at h
      by_cases hrc : r.rcode ≠ 0
      · rw [if_pos hrc] at h
        simp at h
        rw [h]
        rfl
      · rw [if_neg hrc] at h
        by_cases htr : r.truncated
        · rw [if_pos htr] at h
          simp at h
          rw [h]
          rfl
        · rw [if_neg htr] at h
          simp at h
          rw [h]
          rfl

/-- Every event of any resolver call occurs at a depth within the call's
bound: recursion deepens only through `flatten`, whose guard stops at
depth 10, so depth 11 is the deepest any call is ever made at. -/
theorem run_dep_bound (env : REnv) :
    ∀ (fuel : Nat) (cl : Call) (ev : Ev), ev ∈ (run env fuel cl).2 → ev.dep ≤ cl.bound := by
  intro fuel
  induction fuel with
  | zero => intro cl ev h; simp [run] at h
  | succ fuel ih =>
    intro cl ev h
    cases cl with
    | query name qtype depth =>
      simp only [run] at h
      by_cases hs : env.synced = true
      · rw [if_neg (by simp [hs])] at h
        by_cases htld : LastNLabels name.canonical 1 ≠ ethTag
        · rw [if_pos htld] at h
          by_cases hres : (env.stub name.canonical qtype).err = none ∨
              ¬ errIsServFail (env.stub name.canonical qtype).err = true
          · rw [if_pos hres] at h
            simp only [List.mem_append, List.mem_singleton] at h
            rcases h with rfl | rfl <;> simp [Ev.dep, Call.bound]
          · rw [if_neg hres] at h
            simp only [List.append_assoc, List.mem_append, List.mem_singleton] at h
            rcases h with rfl | rfl | h2
            · simp [Ev.dep, Call.bound]
            · simp [Ev.dep, Call.bound]
            · have := ih (.attempt (LastNLabels name.canonical 1) name.canonical qtype depth) ev h2
              simpa [Call.bound] using this
        · rw [if_neg htld] at h
          simp only [List.mem_append, List.mem_singleton] at h
          rcases h with rfl | h2
          · simp [Ev.dep, Call.bound]
          · have := ih (.attempt (LastNLabels name.canonical 1) name.canonical qtype depth) ev h2
            simpa [Call.bound] using this
      · rw [if_pos (by simp [hs])] at h
        simp only [List.mem_singleton] at h
        subst h
        simp [Ev.dep, Call.bound]
    | attempt tld qname qtype depth =>
      simp only [run] at h
      by_cases hemp : tld = (⟨[], false⟩ : DName)
      · rw [if_pos hemp] at h
        simp at h
      · rw [if_neg hemp] at h
        rcases hlx : lookupExtensions env tld with ⟨res, ev1⟩
        rw [hlx] at h
        have hev1 : ∀ e ∈ ev1, Ev.dep e = 0 := by
          intro e he
          exact lookupExtensions_dep env tld e (by rw [hlx]; exact he)
        cases res with
        | error e =>
          rw [hev1 ev h]
          simp [Call.bound]
        | ok hip5Res =>
          dsimp only at h
          by_cases hlen : 0 < hip5Res.length
          · rw [if_pos hlen] at h
            rcases hrh : runHandlers env qname qtype depth hip5Res none with ⟨⟨rrs, oe⟩, ev2⟩
            rw [hrh] at h
            have hev2 : ∀ e ∈ ev2, Ev.dep e = depth := by
              intro e he
              exact runHandlers_dep env qname qtype depth hip5Res none e (by rw [hrh]; exact he)
            cases oe with
            | some e =>
              dsimp only at h
              simp only [List.mem_append] at h
              rcases h with h1 | h2
              · rw [hev1 ev h1]; simp [Call.bound]
              · rw [hev2 ev h2]; simp [Call.bound]
            | none =>
              dsimp only at h
              rcases hfl : run env fuel (.flattenC rrs [] true qname qtype depth) with ⟨⟨rrs', sec, oe3⟩, ev3⟩
              rw [hfl] at h
              have hev3 : ∀ e ∈ ev3, Ev.dep e ≤ max depth 11 := by
                intro e he
                have := ih (.flattenC rrs [] true qname qtype depth) e (by rw [hfl]; exact he)
                simpa [Call.bound] using this
              cases oe3 with
              | none =>
                dsimp only at h
                simp only [List.mem_append] at h
                rcases h with (h1 | h2) | h3
                · rw [hev1 ev h1]; simp [Call.bound]
                · rw [hev2 ev h2]; simp [Call.bound]
                · simpa [Call.bound] using hev3 ev h3
              | some e =>
                dsimp only at h
                simp only [List.mem_append] at h
                rcases h with (h1 | h2) | h3
                · rw [hev1 ev h1]; simp [Call.bound]
                · rw [hev2 ev h2]; simp [Call.bound]
                · simpa [Call.bound] using hev3 ev h3
          · rw [if_neg hlen] at h
            rw [hev1 ev h]
            simp [Call.bound]
    | flattenC rrs extra secure qname qtype depth =>
      simp only [run] at h
      by_cases hd : 10 < depth
      · rw [if_pos hd] at h
        simp only [List.mem_singleton] at h
        subst h
        simp [Ev.dep, Call.bound]
      · rw [if_neg hd] at h
        by_cases hc : 0 < (rrs.filter (fun rr => match rr.rdata with | .cname _ => true | _ => false)).length
        · rw [if_pos hc] at h
          simp only [List.mem_append, List.mem_singleton] at h
          rcases h with rfl | h2
          · simp [Ev.dep, Call.bound]
          · have := ih (.cnameLoop (rrs.filter (fun rr => match rr.rdata with | .cname _ => true | _ => false)) none qname qtype depth) ev h2
            simp only [Call.bound] at this ⊢
            omega
        · rw [if_neg hc] at h
          by_cases hn : 0 < (rrs.filter (fun rr => match rr.rdata with | .ns _ => true | _ => false)).length
          · rw [if_pos hn] at h
            simp only [List.mem_append, List.mem_singleton] at h
            rcases h with rfl | h2
            · simp [Ev.dep, Call.bound]
            · have := ih (.nsChase (rrs.filter (fun rr => match rr.rdata with | .ns _ => true | _ => false)) (if ¬ secure then [] else rrs.filter (fun rr => match rr.rdata with | .ds _ _ _ _ => true | _ => false)) extra qname qtype depth) ev h2
              simp only [Call.bound] at this ⊢
              omega
          · rw [if_neg hn] at h
            by_cases hds : 0 < (if ¬ secure then [] else rrs.filter (fun rr => match rr.rdata with | .ds _ _ _ _ => true | _ => false)).length
            · rw [if_pos hds] at h
              simp only [List.mem_singleton] at h
              subst h
              simp [Ev.dep, Call.bound]
            · rw [if_neg hds] at h
              simp only [List.mem_singleton] at h
              subst h
              simp [Ev.dep, Call.bound]
    | cnameLoop lst lastErr qname qtype depth =>
      simp only [run] at h
      cases lst with
      | nil => simp at h
      | cons rr rest =>
        dsimp only at h
        rcases hr : rr.rdata with _ | _ | target | _ | _ | _ | _ | _ | _ | _ <;> rw [hr] at h
        case cname =>
          dsimp only at h
          by_cases htg : target.canonical = qname
          · rw [if_pos htg] at h
            simp at h
          · rw [if_neg htg] at h
            rcases hq : run env fuel (.query target qtype (depth + 1)) with ⟨⟨recs, sec, oe⟩, evq⟩
            rw [hq] at h
            have hevq : ∀ e ∈ evq, Ev.dep e ≤ max (depth + 1) 11 := by
              intro e he
              have := ih (.query target qtype (depth + 1)) e (by rw [hq]; exact he)
              simpa [Call.bound] using this
            cases oe with
            | some e =>
              dsimp only at h
              simp only [List.mem_append] at h
              rcases h with h1 | h2
              · simpa [Call.bound] using hevq ev h1
              · have := ih (.cnameLoop rest (some e) qname qtype depth) ev h2
                simpa [Call.bound] using this
            | none =>
              dsimp only at h
              simpa [Call.bound] using hevq ev h
        all_goals
          have := ih (.cnameLoop rest lastErr qname qtype depth) ev h
          simpa [Call.bound] using this
    | nsChase rrs ds extra qname qtype depth =>
      simp only [run] at h
      rcases hgd : getDelegatedName rrs ds qname with e | dn <;> rw [hgd] at h
      · simp at h
      · dsimp only at h
        rcases hrl : resolveNSLoop env extra qname qtype rrs none [] with ⟨m, ips⟩
        rw [hrl] at h
        cases m with
        | none => simp at h
        | some msg =>
          dsimp only at h
          rcases hk : (if 0 < ds.length then queryDNSKeys env ips ds dn else .ok []) with e | keys <;> rw [hk] at h
          · simp at h
          · dsimp only at h
            by_cases hkl : 0 < keys.length
            · rw [if_pos hkl] at h
              rcases hv : Verify env.crypto msg dn qname qtype keys env.time 2048 with ⟨msgV, sec, oe⟩
              rw [hv] at h
              cases oe with
              | some e => simp at h
              | none =>
                dsimp only at h
                by_cases ha : 0 < msgV.answer.length
                · rw [if_pos ha] at h
                  have := ih (.flattenC msgV.answer [] sec qname qtype (depth + 1)) ev h
                  simpa [Call.bound] using this
                · rw [if_neg ha] at h
                  have := ih (.flattenC msgV.ns msgV.extra sec qname qtype (depth + 1)) ev h
                  simpa [Call.bound] using this
            · rw [if_neg hkl] at h
              by_cases ha : 0 < msg.answer.length
              · rw [if_pos ha] at h
                have := ih (.flattenC msg.answer [] false qname qtype (depth + 1)) ev h
                simpa [Call.bound] using this
              · rw [if_neg ha] at h
                have := ih (.flattenC msg.ns msg.extra false qname qtype (depth + 1)) ev h
                simpa [Call.bound] using this

/-- Claim C3 (amended): the recursion is bounded by depth 11, not 10 —
every `queryInternal` entry, handler invocation and `flatten` entry in a
resolution started at depth 0 occurs at depth at most 11, and `flatten`
invoked at any depth greater than 10 returns the wrapped MaxDepthReached
error immediately, with no further recursion (its trace is its own entry
event only). -/
theorem c3_amended :
    (∀ (env : REnv) (name : DName) (qtype fuel : Nat) (ev : Ev),
        ev ∈ (queryInternal env name qtype 0 fuel).2 → ev.dep ≤ 11) ∧
    (∀ (env : REnv) (rrs extra : List RR) (secure : Bool) (qname : DName)
        (qtype depth fuel : Nat), 10 < depth → 0 < fuel →
        flatten env rrs extra secure qname qtype depth fuel =
          (([], false, some (.hip5ResolutionFailed .maxDepthReached)), [.flattenCall depth])) := by
  constructor
  · intro env name qtype fuel ev h
    have := run_dep_bound env fuel (.query name qtype 0) ev h
    simpa [Call.bound] using this
  · intro env rrs extra secure qname qtype depth fuel hd hf
    obtain ⟨f, rfl⟩ : ∃ f, fuel = f + 1 := ⟨fuel - 1, by omega⟩
    unfold flatten run
    rw [if_pos hd]

/-- Counterexample for C3: with an unbounded CNAME-chain handler, the
resolution of `a.t.` invokes a sub-flatten at depth 11 > 10 (a handler and
a queryInternal entry also occur at depth 11), while the overall resolution
does return MaxDepthReached. -/
theorem c3_counterexample :
    Ev.flattenCall 11 ∈ (queryInternal envChain startAT 1 0 100).2 ∧ 10 < 11 ∧
    (queryInternal envChain startAT 1 0 100).1.err =
      some (.hip5ResolutionFailed .maxDepthReached) :=
  ⟨by decide, by decide, by decide⟩

/-- Witness for C3 (amended), at the chain environment and at a flatten
call at depth 11. -/
theorem c3_witness :
    Ev.dep (Ev.query startAT 1 0) ≤ 11 ∧
    flatten envChain [] [] true startAT 1 11 1 =
      (([], false, some (.hip5ResolutionFailed .maxDepthReached)), [.flattenCall 11]) :=
  ⟨c3_amended.1 envChain startAT 1 100 (Ev.query startAT 1 0) (by decide),
   c3_amended.2 envChain [] [] true startAT 1 11 1 (by decide) (by decide)⟩


/-- A successful map lookup exhibits a member pair. -/
theorem alLookup_mem {κ α : Type} [DecidableEq κ] :
    ∀ (m : List (κ × α)) (k : κ) (v : α), alLookup m k = some v → (k, v) ∈ m := by
  intro m
  induction m with
  | nil => intro k v h; simp [alLookup] at h
  | cons p rest ih =>
    intro k v h
    rcases p with ⟨k', v'⟩
    simp only [alLookup] at h
    by_cases hk : k' = k
    · rw [if_pos hk] at h
      subst hk
      cases h
      exact List.mem_cons_self _ _
    · rw [if_neg hk] at h
      exact List.mem_cons_of_mem _ (ih k v h)

/-- With pairwise-distinct keys, every member pair is found by lookup. -/
theorem mem_alLookup {κ α : Type} [DecidableEq κ] :
    ∀ (m : List (κ × α)) (p : κ × α), p ∈ m → (m.map Prod.fst).Nodup →
      alLookup m p.1 = some p.2 := by
  intro m
  induction m with
  | nil => intro p h; simp at h
  | cons q rest ih =>
    intro p hp hnd
    rcases q with ⟨k', v'⟩
    simp only [List.map_cons, List.nodup_cons] at hnd
    rcases List.mem_cons.mp hp with rfl | hp'
    · simp [alLookup]
    · simp only [alLookup]
      by_cases hk : k' = p.1
      · exfalso
        apply hnd.1
        rw [hk]
        exact List.mem_map_of_mem Prod.fst hp'
      · rw [if_neg hk]
        exact ih p hp' hnd.2

/-- A lookup misses exactly when the key is absent. -/
theorem alLookup_none_iff {κ α : Type} [DecidableEq κ] :
    ∀ (m : List (κ × α)) (k : κ), alLookup m k = none ↔ k ∉ m.map Prod.fst := by
  intro m
  induction m with
  | nil => intro k; simp [alLookup]
  | cons q rest ih =>
    intro k
    rcases q with ⟨k', v'⟩
    simp only [alLookup, List.map_cons, List.mem_cons]
    by_cases hk : k' = k
    · rw [if_pos hk]
      simp [hk]
    · rw [if_neg hk]
      rw [ih k]
      constructor
      · intro hnmem hor
        rcases hor with h | h
        · exact hk h.symm
        · exact hnmem h
      · intro hninv hmem
        exact hninv (Or.inr hmem)

/-- Inserting a fresh key appends the pair. -/
theorem alInsert_of_none {κ α : Type} [DecidableEq κ] :
    ∀ (m : List (κ × α)) (k : κ) (v : α), alLookup m k = none →
      alInsert m k v = m ++ [(k, v)] := by
  intro m
  induction m with
  | nil => intro k v _; rfl
  | cons q rest ih =>
    intro k v h
    rcases q with ⟨k', v'⟩
    simp only [alLookup] at h
    by_cases hk : k' = k
    · rw [if_pos hk] at h; cases h
    · rw [if_neg hk] at h
      simp only [alInsert, if_neg hk, List.cons_append]
      rw [ih k v h]

/-- Overwriting a present key leaves the key list unchanged. -/
theorem alInsert_map_fst_of_some {κ α : Type} [DecidableEq κ] :
    ∀ (m : List (κ × α)) (k : κ) (v w : α), alLookup m k = some w →
      (alInsert m k v).map Prod.fst = m.map Prod.fst := by
  intro m
  induction m with
  | nil => intro k v w h; simp [alLookup] at h
  | cons q rest ih =>
    intro k v w h
    rcases q with ⟨k', v'⟩
    simp only [alLookup] at h
    by_cases hk : k' = k
    · subst hk
      simp [alInsert]
    · rw [if_neg hk] at h
      simp only [alInsert, if_neg hk, List.map_cons]
      rw [ih k v w h]

/-- With pairwise-distinct keys, a pair of the updated map is the new pair
or an untouched pair of a different key. -/
theorem alInsert_mem_strict {κ α : Type} [DecidableEq κ] :
    ∀ (m : List (κ × α)) (k : κ) (v : α) (p : κ × α), (m.map Prod.fst).Nodup →
      p ∈ alInsert m k v → p = (k, v) ∨ (p ∈ m ∧ p.1 ≠ k) := by
  intro m
  induction m with
  | nil =>
    intro k v p _ h
    simp only [alInsert, List.mem_singleton] at h
    exact Or.inl h
  | cons q rest ih =>
    intro k v p hnd h
    rcases q with ⟨a, b⟩
    simp only [List.map_cons, List.nodup_cons] at hnd
    simp only [alInsert] at h
    by_cases hak : a = k
    · rw [if_pos hak] at h
      rcases List.mem_cons.mp h with rfl | h'
      · exact Or.inl rfl
      · refine Or.inr ⟨List.mem_cons_of_mem _ h', fun hpk => ?_⟩
        apply hnd.1
        rw [← hak] at hpk
        rw [← hpk]
        exact List.mem_map_of_mem Prod.fst h'
    · rw [if_neg hak] at h
      rcases List.mem_cons.mp h with rfl | h'
      · exact Or.inr ⟨List.mem_cons_self _ _, hak⟩
      · rcases ih k v p hnd.2 h' with h2 | h2
        · exact Or.inl h2
        · exact Or.inr ⟨List.mem_cons_of_mem _ h2.1, h2.2⟩

/-- Lookup after insert: the new value at the inserted key, the old map
elsewhere. -/
theorem alLookup_alInsert {κ α : Type} [DecidableEq κ] :
    ∀ (m : List (κ × α)) (k k' : κ) (v : α),
      alLookup (alInsert m k v) k' = if k' = k then some v else alLookup m k' := by
  intro m
  induction m with
  | nil =>
    intro k k' v
    simp only [alInsert, alLookup]
    by_cases hk : k = k'
    · rw [if_pos hk, if_pos hk.symm]
    · rw [if_neg hk, if_neg (fun h => hk h.symm)]
  | cons q rest ih =>
    intro k k' v
    rcases q with ⟨a, b⟩
    simp only [alInsert]
    by_cases hak : a = k
    · subst hak
      simp only [if_pos rfl, alLookup]
      by_cases hk' : a = k'
      · rw [if_pos hk', if_pos hk'.symm]
      · rw [if_neg hk', if_neg (fun h => hk' h.symm), if_neg hk']
    · rw [if_neg hak]
      simp only [alLookup]
      by_cases hak' : a = k'
      · rw [if_pos hak', if_pos hak', if_neg (fun h => hak (hak'.trans h))]
      · rw [if_neg hak', if_neg hak']
        exact ih k k' v

/-- The invariant survives a record that is not a supported DS. -/
theorem FDSInv_skip (zone : DName) (processed : List RR) (m : List (DSKey × DSR)) (rr : RR)
    (hirr : ∀ d, dsOfRR rr = some d → isAlgorithmSupported d.algorithm = true →
      isDigestSupported d.digestType = true → False)
    (hinv : FDSInv zone processed m) : FDSInv zone (processed ++ [rr]) m := by
  obtain ⟨h1, h2, h3, h4⟩ := hinv
  refine ⟨h1, ?_, ?_, ?_⟩
  · intro p hp
    obtain ⟨ha, hb, hc, hd, rr0, hrr0, hds0⟩ := h2 p hp
    exact ⟨ha, hb, hc, hd, rr0, List.mem_append_left _ hrr0, hds0⟩
  · intro p hp rr0 hrr0 d hd hkey hdig
    rcases List.mem_append.mp hrr0 with hin | hin
    · exact h3 p hp rr0 hin d hd hkey hdig
    · rw [List.mem_singleton] at hin
      subst hin
      obtain ⟨ha, _, hc, _, _⟩ := h2 p hp
      have h5 : dsKeyOf d = dsKeyOf p.2 := by rw [hkey, ha]
      have h6 : d.algorithm = p.2.algorithm := congrArg DSKey.algorithm h5
      have halg2 : isAlgorithmSupported d.algorithm = true := by rw [h6]; exact hc
      exact (hirr d hd halg2 hdig).elim
  · intro rr0 hrr0 d hd halg hdig
    rcases List.mem_append.mp hrr0 with hin | hin
    · exact h4 rr0 hin d hd halg hdig
    · rw [List.mem_singleton] at hin
      subst hin
      exact (hirr d hd halg hdig).elim

/-- The invariant survives a supported DS dominated by the digest already
filed under its key. -/
theorem FDSInv_dominated (zone : DName) (processed : List RR) (m : List (DSKey × DSR))
    (rr : RR) (ds ds2 : DSR)
    (hds : dsOfRR rr = some ds)
    (hlook : alLookup m (dsKeyOf ds) = some ds2)
    (hle : ds.digestType ≤ ds2.digestType)
    (hinv : FDSInv zone processed m) : FDSInv zone (processed ++ [rr]) m := by
  obtain ⟨h1, h2, h3, h4⟩ := hinv
  refine ⟨h1, ?_, ?_, ?_⟩
  · intro p hp
    obtain ⟨ha, hb, hc, hd, rr0, hrr0, hds0⟩ := h2 p hp
    exact ⟨ha, hb, hc, hd, rr0, List.mem_append_left _ hrr0, hds0⟩
  · intro p hp rr0 hrr0 d hd hkey hdig
    rcases List.mem_append.mp hrr0 with hin | hin
    · exact h3 p hp rr0 hin d hd hkey hdig
    · rw [List.mem_singleton] at hin
      subst hin
      have hd2 : d = ds := Option.some.inj (hd.symm.trans hds)
      subst hd2
      have hlp : alLookup m p.1 = some p.2 := mem_alLookup m p hp h1
      rw [← hkey] at hlp
      rw [hlook] at hlp
      have h7 : ds2 = p.2 := Option.some.inj hlp
      rw [← h7]
      exact hle
  · intro rr0 hrr0 d hd halg hdig
    rcases List.mem_append.mp hrr0 with hin | hin
    · exact h4 rr0 hin d hd halg hdig
    · rw [List.mem_singleton] at hin
      subst hin
      have hd2 : d = ds := Option.some.inj (hd.symm.trans hds)
      subst hd2
      rw [hlook]
      rfl

/-- The invariant survives replacing an entry by a strictly stronger
supported digest. -/
theorem FDSInv_insert_better (zone : DName) (processed : List RR) (m : List (DSKey × DSR))
    (rr : RR) (ds ds2 : DSR)
    (hds : dsOfRR rr = some ds)
    (howner : zone.equalFold ds.name = true)
    (halg : isAlgorithmSupported ds.algorithm = true)
    (hdig : isDigestSupported ds.digestType = true)
    (hlook : alLookup m (dsKeyOf ds) = some ds2)
    (hlt : ds2.digestType < ds.digestType)
    (hinv : FDSInv zone processed m) :
    FDSInv zone (processed ++ [rr]) (alInsert m (dsKeyOf ds) ds) := by
  obtain ⟨h1, h2, h3, h4⟩ := hinv
  refine ⟨?_, ?_, ?_, ?_⟩
  · rw [alInsert_map_fst_of_some m _ ds ds2 hlook]
    exact h1
  · intro p hp
    rcases alInsert_mem_strict m _ ds p h1 hp with rfl | ⟨hpm, _⟩
    · exact ⟨rfl, howner, halg, hdig, rr,
        List.mem_append_right _ (List.mem_singleton.mpr rfl), hds⟩
    · obtain ⟨ha, hb, hc, hd, rr0, hrr0, hds0⟩ := h2 p hpm
      exact ⟨ha, hb, hc, hd, rr0, List.mem_append_left _ hrr0, hds0⟩
  · intro p hp rr0 hrr0 d hd hkey hdig2
    rcases alInsert_mem_strict m _ ds p h1 hp with rfl | ⟨hpm, hpne⟩
    · rcases List.mem_append.mp hrr0 with hin | hin
      · have hm2 : (dsKeyOf ds, ds2) ∈ m := alLookup_mem m _ ds2 hlook
        have h8 := h3 (dsKeyOf ds, ds2) hm2 rr0 hin d hd hkey hdig2
        exact le_trans h8 (le_of_lt hlt)
      · rw [List.mem_singleton] at hin
        subst hin
        have hd2 : d = ds := Option.some.inj (hd.symm.trans hds)
        rw [hd2]
    · rcases List.mem_append.mp hrr0 with hin | hin
      · exact h3 p hpm rr0 hin d hd hkey hdig2
      · rw [List.mem_singleton] at hin
        subst hin
        have hd2 : d = ds := Option.some.inj (hd.symm.trans hds)
        subst hd2
        exact (hpne hkey.symm).elim
  · intro rr0 hrr0 d hd halg2 hdig2
    rw [alLookup_alInsert]
    by_cases hk : dsKeyOf d = dsKeyOf ds
    · rw [if_pos hk]
      rfl
    · rw [if_neg hk]
      rcases List.mem_append.mp hrr0 with hin | hin
      · exact h4 rr0 hin d hd halg2 hdig2
      · rw [List.mem_singleton] at hin
        subst hin
        have hd2 : d = ds := Option.some.inj (hd.symm.trans hds)
        exact (hk (by rw [hd2])).elim

/-- The invariant survives filing a supported DS under a fresh key. -/
theorem FDSInv_insert_new (zone : DName) (processed : List RR) (m : List (DSKey × DSR))
    (rr : RR) (ds : DSR)
    (hds : dsOfRR rr = some ds)
    (howner : zone.equalFold ds.name = true)
    (halg : isAlgorithmSupported ds.algorithm = true)
    (hdig : isDigestSupported ds.digestType = true)
    (hlook : alLookup m (dsKeyOf ds) = none)
    (hinv : FDSInv zone processed m) :
    FDSInv zone (processed ++ [rr]) (alInsert m (dsKeyOf ds) ds) := by
  obtain ⟨h1, h2, h3, h4⟩ := hinv
  have heq : alInsert m (dsKeyOf ds) ds = m ++ [(dsKeyOf ds, ds)] :=
    alInsert_of_none m _ ds hlook
  have hnotin : dsKeyOf ds ∉ m.map Prod.fst := (alLookup_none_iff m _).mp hlook
  refine ⟨?_, ?_, ?_, ?_⟩
  · rw [heq]
    simp only [List.map_append, List.map_cons, List.map_nil]
    rw [List.nodup_append]
    refine ⟨h1, List.nodup_singleton _, ?_⟩
    intro a ha hb
    rw [List.mem_singleton] at hb
    subst hb
    exact hnotin ha
  · intro p hp
    rw [heq] at hp
    rcases List.mem_append.mp hp with hpm | hpn
    · obtain ⟨ha, hb, hc, hd, rr0, hrr0, hds0⟩ := h2 p hpm
      exact ⟨ha, hb, hc, hd, rr0, List.mem_append_left _ hrr0, hds0⟩
    · rw [List.mem_singleton] at hpn
      subst hpn
      exact ⟨rfl, howner, halg, hdig, rr,
        List.mem_append_right _ (List.mem_singleton.mpr rfl), hds⟩
  · intro p hp rr0 hrr0 d hd hkey hdig2
    rw [heq] at hp
    rcases List.mem_append.mp hp with hpm | hpn
    · rcases List.mem_append.mp hrr0 with hin | hin
      · exact h3 p hpm rr0 hin d hd hkey hdig2
      · rw [List.mem_singleton] at hin
        subst hin
        have hd2 : d = ds := Option.some.inj (hd.symm.trans hds)
        subst hd2
        have hmem : p.1 ∈ m.map Prod.fst := List.mem_map_of_mem Prod.fst hpm
        rw [← hkey] at hmem
        exact (hnotin hmem).elim
    · rw [List.mem_singleton] at hpn
      subst hpn
      rcases List.mem_append.mp hrr0 with hin | hin
      · have hkey2 : dsKeyOf d = dsKeyOf ds := hkey
        have h6 : d.algorithm = ds.algorithm := congrArg DSKey.algorithm hkey2
        have halg2 : isAlgorithmSupported d.algorithm = true := by rw [h6]; exact halg
        have h9 := h4 rr0 hin d hd halg2 hdig2
        rw [hkey2, hlook] at h9
        simp at h9
      · rw [List.mem_singleton] at hin
        subst hin
        have hd2 : d = ds := Option.some.inj (hd.symm.trans hds)
        subst hd2
        exact le_refl _
  · intro rr0 hrr0 d hd halg2 hdig2
    rw [alLookup_alInsert]
    by_cases hk : dsKeyOf d = dsKeyOf ds
    · rw [if_pos hk]
      rfl
    · rw [if_neg hk]
      rcases List.mem_append.mp hrr0 with hin | hin
      · exact h4 rr0 hin d hd halg2 hdig2
      · rw [List.mem_singleton] at hin
        subst hin
        have hd2 : d = ds := Option.some.inj (hd.symm.trans hds)
        exact (hk (by rw [hd2])).elim

/-- The `filterDS` walk preserves the invariant across any suffix of the
input. -/
theorem filterDSLoop_fdsinv (zone : DName) :
    ∀ (rrs processed : List RR) (m m2 : List (DSKey × DSR)),
      filterDSLoop zone rrs m = Except.ok m2 → FDSInv zone processed m →
      FDSInv zone (processed ++ rrs) m2 := by
  intro rrs
  induction rrs with
  | nil =>
    intro processed m m2 h hinv
    simp only [filterDSLoop] at h
    cases h
    simpa using hinv
  | cons rr rest ih =>
    intro processed m m2 h hinv
    have hassoc : (processed ++ [rr]) ++ rest = processed ++ rr :: rest := by simp
    simp only [filterDSLoop] at h
    by_cases howner : zone.equalFold rr.name = true
    · rw [if_neg (by simpa using howner)] at h
      cases hds : dsOfRR rr with
      | none =>
        simp only [hds] at h
        have step := FDSInv_skip zone processed m rr
          (fun d hd _ _ => by rw [hds] at hd; cases hd) hinv
        have := ih (processed ++ [rr]) m m2 h step
        rwa [hassoc] at this
      | some ds =>
        simp only [hds] at h
        by_cases hsup : isAlgorithmSupported ds.algorithm = true ∧
            isDigestSupported ds.digestType = true
        · rw [if_neg (by simp [hsup.1, hsup.2])] at h
          have hname : ds.name = rr.name := by
            have hds2 := hds
            unfold dsOfRR at hds2
            rcases hr : rr.rdata <;> rw [hr] at hds2 <;> cases hds2 <;> rfl
          have hown2 : zone.equalFold ds.name = true := by
            rw [hname]
            exact howner
          cases hlook : alLookup m (dsKeyOf ds) with
          | some ds2 =>
            have hlook2 : alLookup m (⟨ds.keyTag, ds.algorithm⟩ : DSKey) = some ds2 := hlook
            rw [hlook2] at h
            dsimp only at h
            by_cases hle : ds.digestType ≤ ds2.digestType
            · rw [if_pos hle] at h
              have step := FDSInv_dominated zone processed m rr ds ds2 hds hlook hle hinv
              have := ih (processed ++ [rr]) m m2 h step
              rwa [hassoc] at this
            · rw [if_neg hle] at h
              have hlt : ds2.digestType < ds.digestType := Nat.lt_of_not_le hle
              have step := FDSInv_insert_better zone processed m rr ds ds2 hds hown2
                hsup.1 hsup.2 hlook hlt hinv
              have := ih (processed ++ [rr]) _ m2 h step
              rwa [hassoc] at this
          | none =>
            have hlook2 : alLookup m (⟨ds.keyTag, ds.algorithm⟩ : DSKey) = none := hlook
            rw [hlook2] at h
            dsimp only at h
            have step := FDSInv_insert_new zone processed m rr ds hds hown2
              hsup.1 hsup.2 hlook hinv
            have := ih (processed ++ [rr]) _ m2 h step
            rwa [hassoc] at this
        · rw [if_pos (by tauto)] at h
          have step := FDSInv_skip zone processed m rr
            (fun d hd ha hb => by
              rw [hds] at hd
              cases Option.some.inj hd
              exact hsup ⟨ha, hb⟩) hinv
          have := ih (processed ++ [rr]) m m2 h step
          rwa [hassoc] at this
    · rw [if_pos (by simpa using howner)] at h
      cases h

/-- A successful `filterDS` run yields a map satisfying the invariant over
the whole input, whose values are the output. -/
theorem filterDS_fdsinv (zone : DName) (rrs : List RR) (out : List DSR)
    (h : filterDS zone rrs = Except.ok out) :
    zone.fqdn = true ∧ ∃ m2, FDSInv zone rrs m2 ∧ out = m2.map (fun p => p.2) := by
  unfold filterDS at h
  by_cases hfq : zone.fqdn = true
  · rw [if_neg (by simpa using hfq)] at h
    refine ⟨hfq, ?_⟩
    cases hm : filterDSLoop zone rrs [] with
    | error e => rw [hm] at h; cases h
    | ok m2 =>
      rw [hm] at h
      refine ⟨m2, ?_, (Option.some.inj ?_)⟩
      · have hinv0 : FDSInv zone [] [] := by
          refine ⟨List.nodup_nil, ?_, ?_, ?_⟩ <;> intro p hp <;> simp at hp
        have := filterDSLoop_fdsinv zone rrs [] [] m2 hm hinv0
        simpa using this
      · simp only [Except.map] at h
        exact congrArg (fun x => match x with | Except.ok v => some v | _ => none) h.symm
  · rw [if_pos (by simpa using hfq)] at h
    cases h

/-- Feeding back zone-owned supported DS records with pairwise-distinct
keys appends them to the accumulator in order. -/
theorem filterDSLoop_secondPass (zone : DName) :
    ∀ (ds : List DSR) (m0 : List (DSKey × DSR)),
      (∀ d ∈ ds, zone.equalFold d.name = true ∧ isAlgorithmSupported d.algorithm = true ∧
        isDigestSupported d.digestType = true) →
      (m0.map Prod.fst ++ ds.map dsKeyOf).Nodup →
      filterDSLoop zone (ds.map DSR.toRR) m0 =
        Except.ok (m0 ++ ds.map (fun d => (dsKeyOf d, d))) := by
  intro ds
  induction ds with
  | nil =>
    intro m0 _ _
    simp [filterDSLoop]
  | cons d rest ih =>
    intro m0 hall hnd
    obtain ⟨hown, halg, hdig⟩ := hall d (List.mem_cons_self _ _)
    have hkey_not : dsKeyOf d ∉ m0.map Prod.fst := by
      intro hmem
      rw [List.nodup_append] at hnd
      exact hnd.2.2 hmem (by simp)
    have hlook : alLookup m0 (dsKeyOf d) = none := (alLookup_none_iff m0 _).mpr hkey_not
    have hlook2 : alLookup m0 (⟨d.keyTag, d.algorithm⟩ : DSKey) = none := hlook
    have hds : dsOfRR d.toRR = some d := rfl
    simp only [List.map_cons, filterDSLoop]
    rw [if_neg (by simp [show zone.equalFold d.toRR.name = true from hown])]
    rw [show dsOfRR d.toRR = some d from rfl]
    dsimp only
    rw [if_neg (by simp [halg, hdig])]
    rw [hlook2]
    dsimp only
    rw [show (⟨d.keyTag, d.algorithm⟩ : DSKey) = dsKeyOf d from rfl,
      alInsert_of_none m0 _ d hlook]
    have hall2 : ∀ e ∈ rest, zone.equalFold e.name = true ∧
        isAlgorithmSupported e.algorithm = true ∧ isDigestSupported e.digestType = true :=
      fun e he => hall e (List.mem_cons_of_mem _ he)
    have hnd2 : ((m0 ++ [(dsKeyOf d, d)]).map Prod.fst ++ rest.map dsKeyOf).Nodup := by
      simp only [List.map_append, List.map_cons, List.map_nil, List.append_assoc,
        List.singleton_append]
      simpa using hnd
    rw [ih (m0 ++ [(dsKeyOf d, d)]) hall2 hnd2]
    simp

/-- In a list whose image under `f` has no duplicates, each element is the
unique one sharing its `f`-value. -/
theorem countP_eq_one_of_nodup_map {α β : Type} [DecidableEq β] (f : α → β) :
    ∀ (l : List α) (x : α), (l.map f).Nodup → x ∈ l →
      l.countP (fun y => decide (f y = f x)) = 1 := by
  intro l
  induction l with
  | nil => intro x _ h; simp at h
  | cons a as ih =>
    intro x hnd hx
    simp only [List.map_cons, List.nodup_cons] at hnd
    rw [List.countP_cons]
    rcases List.mem_cons.mp hx with rfl | hx'
    · have hzero : as.countP (fun y => decide (f y = f x)) = 0 := by
        rw [List.countP_eq_zero]
        intro y hy hdec
        apply hnd.1
        rw [← of_decide_eq_true hdec]
        exact List.mem_map_of_mem f hy
      rw [hzero]
      simp
    · have hne : f a ≠ f x := by
        intro hfe
        apply hnd.1
        rw [hfe]
        exact List.mem_map_of_mem f hx'
      rw [ih x hnd.2 hx']
      simp [hne]

/-- Claim C6: for every fully-qualified zone and DS record set on which
`filterDS` succeeds, `filterDS` is idempotent (applying it to its own
output yields the same list), each output DS is the unique one for its
(key-tag, algorithm) pair, comes from the input with a supported digest
that is numerically maximal among the supported digests the input offers
for that pair, and every supported input DS is represented by an output
entry for its pair. -/
theorem c6_filterDS (zone : DName) (rrs : List RR) (out : List DSR)
    (hok : filterDS zone rrs = Except.ok out) :
    filterDS zone (out.map DSR.toRR) = Except.ok out ∧
    (∀ d ∈ out, out.countP
      (fun d2 => decide (d2.keyTag = d.keyTag ∧ d2.algorithm = d.algorithm)) = 1) ∧
    (∀ d ∈ out, (∃ rr ∈ rrs, dsOfRR rr = some d) ∧ isDigestSupported d.digestType = true ∧
      ∀ rr ∈ rrs, ∀ d2, dsOfRR rr = some d2 → d2.keyTag = d.keyTag →
        d2.algorithm = d.algorithm → isDigestSupported d2.digestType = true →
        d2.digestType ≤ d.digestType) ∧
    (∀ rr ∈ rrs, ∀ d2, dsOfRR rr = some d2 → isAlgorithmSupported d2.algorithm = true →
      isDigestSupported d2.digestType = true →
      ∃ d ∈ out, d.keyTag = d2.keyTag ∧ d.algorithm = d2.algorithm) := by
  obtain ⟨hfq, m2, hinv, hout⟩ := filterDS_fdsinv zone rrs out hok
  obtain ⟨h1, h2, h3, h4⟩ := hinv
  have ha : ∀ d ∈ out, (dsKeyOf d, d) ∈ m2 := by
    intro d hd
    rw [hout] at hd
    obtain ⟨p, hp, hpd⟩ := List.mem_map.mp hd
    subst hpd
    have hfst := (h2 p hp).1
    rw [← hfst, Prod.mk.eta]
    exact hp
  have hnodup_out : (out.map dsKeyOf).Nodup := by
    rw [hout, List.map_map]
    have hmc : m2.map (dsKeyOf ∘ fun p => p.2) = m2.map Prod.fst := by
      apply List.map_congr_left
      intro p hp
      exact ((h2 p hp).1).symm
    rw [hmc]
    exact h1
  refine ⟨?_, ?_, ?_, ?_⟩
  · have hall : ∀ d ∈ out, zone.equalFold d.name = true ∧
        isAlgorithmSupported d.algorithm = true ∧ isDigestSupported d.digestType = true := by
      intro d hd
      have h5 := h2 _ (ha d hd)
      exact ⟨h5.2.1, h5.2.2.1, h5.2.2.2.1⟩
    have hsp := filterDSLoop_secondPass zone out [] hall (by simpa using hnodup_out)
    unfold filterDS
    rw [if_neg (by simp [hfq])]
    rw [hsp]
    simp only [Except.map, List.nil_append, List.map_map]
    have hid : List.map ((fun p => p.2) ∘ fun d => (dsKeyOf d, d)) out = out := by
      have hmc : List.map ((fun p => p.2) ∘ fun d => (dsKeyOf d, d)) out =
          List.map id out := List.map_congr_left (fun d _ => rfl)
      rw [hmc, List.map_id]
    rw [hid]
  · intro d hd
    have heqp : (fun d2 => decide (d2.keyTag = d.keyTag ∧ d2.algorithm = d.algorithm)) =
        (fun d2 => decide (dsKeyOf d2 = dsKeyOf d)) := by
      funext d2
      apply decide_eq_decide.mpr
      constructor
      · intro h5
        simp [dsKeyOf, h5.1, h5.2]
      · intro h5
        exact ⟨congrArg DSKey.keyTag h5, congrArg DSKey.algorithm h5⟩
    rw [heqp]
    exact countP_eq_one_of_nodup_map dsKeyOf out d hnodup_out hd
  · intro d hd
    have hpm := ha d hd
    have h5 := h2 _ hpm
    refine ⟨h5.2.2.2.2, h5.2.2.2.1, ?_⟩
    intro rr hrr d2 hd2 htag halg2 hdig2
    have hkey : dsKeyOf d2 = (dsKeyOf d, d).1 := by
      show dsKeyOf d2 = dsKeyOf d
      simp [dsKeyOf, htag, halg2]
    exact h3 _ hpm rr hrr d2 hd2 hkey hdig2
  · intro rr hrr d2 hd2 halg2 hdig2
    have h5 := h4 rr hrr d2 hd2 halg2 hdig2
    obtain ⟨v, hv⟩ := Option.isSome_iff_exists.mp h5
    have hvm := alLookup_mem m2 _ v hv
    have h6 : dsKeyOf d2 = dsKeyOf v := (h2 _ hvm).1
    refine ⟨v, ?_, ?_, ?_⟩
    · rw [hout]
      exact List.mem_map.mpr ⟨(dsKeyOf d2, v), hvm, rfl⟩
    · exact (congrArg DSKey.keyTag h6).symm
    · exact (congrArg DSKey.algorithm h6).symm

/-- Witness for C6: the two-tag instance in which SHA-384 beats SHA-256. -/
theorem c6_witness :
    filterDS zoneE (outFilter.map DSR.toRR) = Except.ok outFilter :=
  (c6_filterDS zoneE rrsFilter outFilter (by rfl)).1

end Fingertip
